import Mathlib

/-!
Verification of the lambda parameter-estimation engine of CAFE
(posterior scoring, empirical Poisson prior estimation, EM mixture
refinement, multi-run convergence supervision, grid scanning and the
per-family search), shallowly embedded from the C++ source
(lambda.cpp and libtree/family.h).

Doubles are modelled as real numbers; quantities that can be the IEEE
value -inf (log-scores) are modelled as extended reals (EReal), where
the IEEE values log(0) = -inf and exp(-inf) = 0 are modelled by the
functions elog and eexp below.  Purely order-and-arithmetic code
(tolerance loops, grid arithmetic, leaf-count collection) is modelled
over the rationals so that it is executable.  External collaborators
(the tree likelihood evaluator, fminsearch, the Poisson pmf, the
per-family size-range setter) are taken as explicit function
parameters of the embedded definitions.
-/

/-- Capacity constant from family.h. -/
def FAMILYSIZEMAX : ℕ := 1000

/-- Embeds struct family_size_range of family.h. -/
structure family_size_range where
  min : Int
  max : Int
  root_min : Int
  root_max : Int
deriving DecidableEq, Repr, Inhabited

/-- Embeds the fields of CafeFamilyItem that the lambda engine reads: the
family id, the per-species counts, the duplicate-reference index ref
(negative when the family is not a duplicate) and the cached
most-likely-root-size index maxlh (negative when unset). -/
structure CafeFamilyItem where
  id : String
  count : List Int
  ref : Int
  maxlh : Int
deriving DecidableEq, Repr, Inhabited

/-- Embeds the fields of CafeFamily that the lambda engine reads: the
number of species, the per-species tree indices (negative when the
species is not mapped into the tree) and the family list. -/
structure CafeFamily where
  num_species : ℕ
  index : List Int
  flist : List CafeFamilyItem
deriving DecidableEq, Repr, Inhabited

/-- Models the IEEE double log on the nonnegative inputs that the scorer
feeds it: log(0) = -inf, modelled as the bottom of EReal.  (Negative
inputs, which IEEE maps to NaN, do not arise: likelihoods and priors
are nonnegative; they are also mapped to bottom here.) -/
noncomputable def elog (x : ℝ) : EReal :=
  if x ≤ 0 then ⊥ else ((Real.log x : ℝ) : EReal)

/-- Models the IEEE double exp on inputs that are a real or -inf:
exp(-inf) = 0.  The top element does not arise from sums of elog
values and is mapped to 0. -/
noncomputable def eexp (x : EReal) : ℝ :=
  if x = ⊥ then 0 else if x = ⊤ then 0 else Real.exp x.toReal

/-- Maximum of a list of doubles, 0 for the empty list; this is the
semantics of the max_element calls of compute_posterior on the
populated vectors of the source. -/
def listMax : List ℝ → ℝ
  | [] => 0
  | x :: xs => xs.foldl max x

/-- Modelled from the spec: the utility __max (not under src/) returns
the maximum of the first n entries of a double array. -/
def __max (l : List ℝ) (n : ℕ) : ℝ := listMax (l.take n)

/-- Modelled from the spec: the utility __maxidx (not under src/)
returns the index of a maximal entry among the first n entries. -/
noncomputable def __maxidx (l : List ℝ) (n : ℕ) : Int :=
  (List.range n).foldl
    (fun best j => if l.getD best.toNat 0 < l.getD j 0 then (j : Int) else best) 0

/-- Embeds struct posterior (result of compute_posterior). -/
structure posterior where
  max_likelihood : ℝ
  max_posterior : ℝ

/-- Embeds compute_posterior of lambda.cpp.  The likelihood vector for
the family (the output of the external compute_tree_likelihoods /
get_likelihoods collaborators) is passed as the list likelihood; rfsize
and the prior vector correspond to pcafe->rfsize and prior_rfsize.
Returns the posterior result together with the updated maxlh cache
field of the family item (the source mutates pitem->maxlh in place). -/
noncomputable def compute_posterior (likelihood : List ℝ) (rfsize : ℕ)
    (prior_rfsize : List ℝ) (maxlh : Int) : posterior × Int :=
  let ml := __max likelihood rfsize
  let maxlh2 := if maxlh < 0 then __maxidx likelihood rfsize else maxlh
  let post := (List.range rfsize).map
    (fun j => eexp (elog (likelihood.getD j 0) + elog (prior_rfsize.getD j 0)))
  ({ max_likelihood := ml, max_posterior := listMax post }, maxlh2)

/-- Message of the runtime_error thrown by get_posterior. -/
def zeroPosteriorMsg (id : String) : String :=
  "WARNING: Calculated posterior probability for family " ++ id ++ " = 0\n"

/-- One iteration of the family loop of get_posterior: the pair
(family_max_likelihood[i], family_max_posterior[i]) assigned at index i,
where fml and fmp are the values assigned at earlier indices (reads of
not-yet-assigned entries of the zero-initialised vectors yield 0, which
is the getD default). -/
noncomputable def gpPair (Lf : ℕ → List ℝ) (rfsize : ℕ) (prior : List ℝ)
    (pitem : CafeFamilyItem) (i : ℕ) (fml fmp : List ℝ) : ℝ × ℝ :=
  if pitem.ref < 0 ∨ pitem.ref = (i : Int) then
    let p := (compute_posterior (Lf i) rfsize prior pitem.maxlh).1
    (p.max_likelihood, p.max_posterior)
  else
    (fml.getD pitem.ref.toNat 0, fmp.getD pitem.ref.toNat 0)

/-- Loop of get_posterior of lambda.cpp: walks the family list at
absolute index i carrying the assigned prefixes of the two vectors and
the accumulated score; throws (returns Except.error) when the max
likelihood entry of the current family is 0, and otherwise adds the log
of its max posterior to the score. -/
noncomputable def gpGo (Lf : ℕ → List ℝ) (rfsize : ℕ) (prior : List ℝ) :
    List CafeFamilyItem → ℕ → List ℝ → List ℝ → EReal → Except String EReal
  | [], _, _, _, score => Except.ok score
  | pitem :: rest, i, fml, fmp, score =>
    let pr := gpPair Lf rfsize prior pitem i fml fmp
    if pr.1 = 0 then Except.error (zeroPosteriorMsg pitem.id)
    else gpGo Lf rfsize prior rest (i + 1) (fml ++ [pr.1]) (fmp ++ [pr.2])
      (score + elog pr.2)

/-- Embeds get_posterior of lambda.cpp.  Lf gives, for each family
index, the likelihood vector that the external evaluator produces for
that family under the rates currently set on the tree. -/
noncomputable def get_posterior (pfamily : List CafeFamilyItem)
    (Lf : ℕ → List ℝ) (rfsize : ℕ) (prior : List ℝ) : Except String EReal :=
  gpGo Lf rfsize prior pfamily 0 [] [] 0

/-- Error-free companion of gpGo: returns the lists of per-family max
likelihoods and max posteriors (the contents the two vectors of
get_posterior would have if no family threw), for the suffix of the
family list being walked. -/
noncomputable def postsGo (Lf : ℕ → List ℝ) (rfsize : ℕ) (prior : List ℝ) :
    List CafeFamilyItem → ℕ → List ℝ → List ℝ → List ℝ × List ℝ
  | [], _, _, _ => ([], [])
  | pitem :: rest, i, fml, fmp =>
    let pr := gpPair Lf rfsize prior pitem i fml fmp
    let t := postsGo Lf rfsize prior rest (i + 1) (fml ++ [pr.1]) (fmp ++ [pr.2])
    (pr.1 :: t.1, pr.2 :: t.2)

/-- Per-family max likelihood and max posterior lists for a whole
family set. -/
noncomputable def postsAll (pfamily : List CafeFamilyItem) (Lf : ℕ → List ℝ)
    (rfsize : ℕ) (prior : List ℝ) : List ℝ × List ℝ :=
  postsGo Lf rfsize prior pfamily 0 [] []

/-- Accumulates log max posteriors starting from a given score, the way
the score variable of get_posterior accumulates them. -/
noncomputable def scoreFrom (sc : EReal) (ps : List ℝ) : EReal :=
  ps.foldl (fun a p => a + elog p) sc

/-- Sum over families of the log of the max posterior. -/
noncomputable def scoreOf (ps : List ℝ) : EReal := scoreFrom 0 ps

/-- Error-free companion of gpGo computing the final score directly. -/
noncomputable def specScoreGo (Lf : ℕ → List ℝ) (rfsize : ℕ) (prior : List ℝ) :
    List CafeFamilyItem → ℕ → List ℝ → List ℝ → EReal → EReal
  | [], _, _, _, sc => sc
  | pitem :: rest, i, fml, fmp, sc =>
    let pr := gpPair Lf rfsize prior pitem i fml fmp
    specScoreGo Lf rfsize prior rest (i + 1) (fml ++ [pr.1]) (fmp ++ [pr.2])
      (sc + elog pr.2)

/-- Embeds __cafe_best_lambda_search of lambda.cpp.  The parameter L
gives, for a rate vector, the per-family likelihood vectors produced by
the external collaborators (cafe_shell_set_lambdas followed by the tree
likelihood computation).  A negative rate component makes the score
log(0); a runtime_error thrown by get_posterior is caught and also
mapped to the log(0) score; the function returns the negated score (it
is the minimised objective). -/
noncomputable def __cafe_best_lambda_search (plambda : List ℝ) (num_lambdas : ℕ)
    (pfamily : List CafeFamilyItem) (L : List ℝ → ℕ → List ℝ)
    (rfsize : ℕ) (prior : List ℝ) : EReal :=
  if ∃ i < num_lambdas, plambda.getD i 0 < 0 then -(elog 0)
  else
    match get_posterior pfamily (L plambda) rfsize prior with
    | Except.ok s => -s
    | Except.error _ => -(elog 0)

/-- Coercion of a possibly-NaN double (modelled as Option ℝ, none being
NaN) applied by __lnLPoisson: NaN becomes 0, otherwise the value. -/
def nanTo0 : Option ℝ → ℝ
  | none => 0
  | some v => v

/-- Embeds __lnLPoisson of lambda.cpp.  The external Poisson pmf
poisspdf (declared in mathfunc.h, not under src/) is passed as the
function pdf, returning none where IEEE would return NaN.  Each leaf
size contributes the log of its (NaN-coerced) pmf value; the negated
sum is returned. -/
noncomputable def __lnLPoisson (pdf : ℝ → ℝ → Option ℝ)
    (leaf_sizes : List Int) (lambda : ℝ) : EReal :=
  -(leaf_sizes.foldl (fun (sc : EReal) (x : Int) => sc + elog (nanTo0 (pdf (x : ℝ) lambda))) 0)

/-- Embeds collect_leaf_sizes of lambda.cpp: for every family and every
species whose tree index is nonnegative, the count is pushed shifted by
-1 when it is positive. -/
def collect_leaf_sizes (pfamily : CafeFamily) : List Int :=
  pfamily.flist.flatMap (fun pitem =>
    (List.range pfamily.num_species).filterMap (fun i =>
      if pfamily.index.getD i (-1) < 0 then none
      else if pitem.count.getD i 0 > 0 then some (pitem.count.getD i 0 - 1)
      else none))

/-- Follows the words of the spec (section 4.2) for comparison with
collect_leaf_sizes: collect every positive leaf count across all
families and species, shifted by -1, with no condition on the species
tree index. -/
def collect_leaf_sizes_spec (pfamily : CafeFamily) : List Int :=
  pfamily.flist.flatMap (fun pitem =>
    (List.range pfamily.num_species).filterMap (fun i =>
      if pitem.count.getD i 0 > 0 then some (pitem.count.getD i 0 - 1)
      else none))

/-- Embeds find_poisson_lambda of lambda.cpp up to the external
fminsearch optimizer, which is passed as the function fmin mapping an
objective to the minimising rate: the objective handed to the optimizer
is __lnLPoisson on the collected leaf sizes. -/
noncomputable def find_poisson_lambda (fmin : (ℝ → EReal) → ℝ)
    (pdf : ℝ → ℝ → Option ℝ) (pfamily : CafeFamily) : ℝ :=
  fmin (__lnLPoisson pdf (collect_leaf_sizes pfamily))

/-- Embeds cafe_set_prior_rfsize_poisson_lambda of lambda.cpp: the
prior array holds, at each index i below FAMILYSIZEMAX, the raw pmf
value at shift - 1 + i (a NaN pmf value, modelled as none, is stored
unmodified). -/
def cafe_set_prior_rfsize_poisson_lambda (pdf : ℝ → ℝ → Option ℝ)
    (shift : Int) (lambda : ℝ) : List (Option ℝ) :=
  (List.range FAMILYSIZEMAX).map (fun i => pdf ((shift : ℝ) - 1 + (i : ℕ)) lambda)

/-- Embeds the inner EM weight-refinement loop of
cafe_best_lambda_by_fminsearch (lambda.cpp lines 572-591).  The state
type is abstract; step performs one loop body up to the convergence
test (responsibility-based reseed of the weight slice followed by
fminsearch_min and the copy-back of the minimiser), and fw reads
parameters[lambda_len * (k - fixcluster0)], the first weight parameter.
The loop repeats while the new value minus the previous value exceeds
tolx; fuel bounds the number of iterations (the source imposes no cap,
so exhausted fuel returns none). -/
def em_weight_loop {σ : Type} (step : σ → σ) (fw : σ → ℚ) (tolx : ℚ) :
    ℕ → σ → ℚ → Option σ
  | 0, _, _ => none
  | fuel + 1, s, current_p =>
    let s2 := step s
    let prev_p := current_p
    let current2 := fw s2
    if current2 - prev_p > tolx then em_weight_loop step fw tolx fuel s2 current2
    else some s2

/-- Minimum of a list of doubles, 0 for the empty list. -/
def listMin : List ℚ → ℚ
  | [] => 0
  | x :: xs => xs.foldl min x

/-- Modelled from the spec: the utility __min (not under src/) returns
the minimum of the first n entries of a double array. -/
def __min (l : List ℚ) (n : ℕ) : ℚ := listMin (l.take n)

/-- Embeds the outer do-while run loop of
cafe_best_lambda_by_fminsearch (lambda.cpp lines 525-646) around the
external optimizer.  The score produced by run number r (the value
*pfm->fv after that run) is given by f r.  The state is the current run
count and the list of scores of completed runs; the result is the final
run count and whether convergence was declared.  The fuel argument is
always max_runs - runs, so the zero case is unreachable. -/
def lambda_runs_go (f : ℕ → ℚ) (tolf : ℚ) (checkconv : Bool) :
    ℕ → ℕ → List ℚ → ℕ × Bool
  | 0, runs, _ => (runs, false)
  | fuel + 1, runs, scores =>
    let fv := f runs
    let converged : Bool := decide (0 < runs) && decide (|__min scores runs - fv| < 10 * tolf)
    let scores2 := scores ++ [fv]
    let runs2 := runs + 1
    if checkconv = true ∧ converged = false ∧ runs2 < 10 then
      lambda_runs_go f tolf checkconv fuel runs2 scores2
    else (runs2, converged)

/-- Embeds the repeated-run structure of cafe_best_lambda_by_fminsearch
with max_runs = 10, starting with no completed runs. -/
def cafe_best_lambda_runs (f : ℕ → ℚ) (tolf : ℚ) (checkconv : Bool) : ℕ × Bool :=
  lambda_runs_go f tolf checkconv 10 0 []

/-- Embeds the convergence verdict logged at lambda.cpp lines 637-644:
a log line in either outcome, never an error. -/
def convergenceVerdict (res : ℕ × Bool) : String :=
  if res.2 then "score converged in " ++ toString res.1 ++ " runs.\n"
  else "score failed to converge in " ++ toString (10 : ℕ) ++ " runs.\n"

/-- Embeds struct lambda_range of lambda.h (a start:step:end range for
one rate dimension); the end field is spelled end_ because end is a
keyword. -/
structure lambda_range where
  start : ℚ
  step : ℚ
  end_ : ℚ
deriving DecidableEq, Repr, Inhabited

/-- Modelled from the spec: the libm rounding function rint used by
cafe_lambda_distribution, specified as round to nearest (the spec
formula is 1 + round((end - start) / step)). -/
def rint (x : ℚ) : ℤ := round x

/-- Grid point count of one dimension as the source computes it:
size[i] = 1 + rint((end - start) / step). -/
def grid_size (r : lambda_range) : ℤ := 1 + rint ((r.end_ - r.start) / r.step)

/-- Grid point count of one dimension as a natural number (the array
dimension handed to gmatrix_double_new). -/
def grid_dim (r : lambda_range) : ℕ := (grid_size r).toNat

/-- Modelled from the spec: the index vectors of the cartesian grid
with the given dimension sizes, in the enumeration order of the
external gmatrix library (gmatrix_dim_index over linear indices). -/
def gridIndices : List ℕ → List (List ℕ)
  | [] => [[]]
  | d :: ds => (List.range d).flatMap (fun i => (gridIndices ds).map (fun idx => i :: idx))

/-- Rate vector of a grid point: plambda[j] = range[j].step * idx[j] +
range[j].start. -/
def lambdaOf (ranges : List lambda_range) (idx : List ℕ) : List ℚ :=
  (ranges.zip idx).map (fun p => p.1.step * (p.2 : ℚ) + p.1.start)

/-- One iteration of the grid loop of cafe_lambda_distribution
(lambda.cpp lines 205-222).  The external evaluation of
__cafe_best_lambda_search at the grid point is passed as eval, taking
the rate vector and the current per-family maxlh cache list and
returning the value of the call (the negated score) together with the
cache list as the evaluation leaves it.  The stored matrix value is v =
-(call value) = the score; when -v exceeds 1e300 every maxlh cache
entry is reset to -1 before the next point. -/
def gridStep (eval : List ℚ → List Int → ℚ × List Int) (ranges : List lambda_range)
    (acc : List ℚ × List Int) (idx : List ℕ) : List ℚ × List Int :=
  let plambda := lambdaOf ranges idx
  let r := eval plambda acc.2
  let v := -r.1
  (acc.1 ++ [v], if -v > (10 : ℚ) ^ 300 then r.2.map (fun _ => (-1 : Int)) else r.2)

/-- Embeds cafe_lambda_distribution of lambda.cpp: evaluates every grid
point in enumeration order, returning the stored matrix values and the
final maxlh cache list. -/
def cafe_lambda_distribution (eval : List ℚ → List Int → ℚ × List Int)
    (ranges : List lambda_range) (maxlh0 : List Int) : List ℚ × List Int :=
  (gridIndices (ranges.map grid_dim)).foldl (gridStep eval ranges) ([], maxlh0)

/-- Embeds write_lambda_distribution of lambda.cpp: one output row per
grid point, holding the coordinate values idx[k] * step + start
followed by the stored score. -/
def write_lambda_distribution (eval : List ℚ → List Int → ℚ × List Int)
    (ranges : List lambda_range) (maxlh0 : List Int) : List (List ℚ × ℚ) :=
  let pgm := cafe_lambda_distribution eval ranges maxlh0
  ((gridIndices (ranges.map grid_dim)).zip pgm.1).map
    (fun p => (lambdaOf ranges p.1, p.2))

/-- State of cafe_each_best_lambda_by_fminsearch: the per-family fitted
lambda and mu vectors produced so far (pitem->lambda and pitem->mu in
family order), the current contents of param->lambda (the warm start),
the session family-size range param->family_size, the tree range
pcafe->range, and the number of fminsearch_min calls made. -/
structure EachState where
  reslam : List (List ℚ)
  resmu : List (List ℚ)
  cur : List ℚ
  family_size : family_size_range
  tree_range : family_size_range
  optCalls : ℕ
deriving DecidableEq, Repr

/-- Embeds the family loop of cafe_each_best_lambda_by_fminsearch
(lambda.cpp lines 932-1001).  A family whose ref is nonnegative and
different from its own index copies the lambda and mu of the referenced
family and makes no optimizer call; otherwise the external
cafe_family_set_size_with_family_forced (passed as forced, giving the
tree range it installs for family i) overrides the tree range and the
session range, the external fminsearch (passed as optimize) is run once
from the current warm start, and its result becomes the fitted lambda
of the family (its mu stays the freshly allocated zero vector) and the
next warm start. -/
def eachGo (forced : ℕ → family_size_range) (optimize : ℕ → List ℚ → List ℚ)
    (lambda_len : ℕ) : List CafeFamilyItem → ℕ → EachState → EachState
  | [], _, st => st
  | pitem :: rest, i, st =>
    if 0 ≤ pitem.ref ∧ pitem.ref ≠ (i : Int) then
      eachGo forced optimize lambda_len rest (i + 1)
        { st with
          reslam := st.reslam ++ [st.reslam.getD pitem.ref.toNat []],
          resmu := st.resmu ++ [st.resmu.getD pitem.ref.toNat []] }
    else
      let r := forced i
      let re := optimize i st.cur
      eachGo forced optimize lambda_len rest (i + 1)
        { reslam := st.reslam ++ [re],
          resmu := st.resmu ++ [List.replicate lambda_len 0],
          cur := re,
          family_size := r,
          tree_range := r,
          optCalls := st.optCalls + 1 }

/-- Number of families of the list (walked from absolute index i) that
are not duplicate references, therefore each costing one optimizer
call. -/
def nonDupCount : List CafeFamilyItem → ℕ → ℕ
  | [], _ => 0
  | pitem :: rest, i =>
    (if 0 ≤ pitem.ref ∧ pitem.ref ≠ (i : Int) then 0 else 1) + nonDupCount rest (i + 1)

/-- Embeds cafe_each_best_lambda_by_fminsearch of lambda.cpp: saves the
session family-size range in temp_range, seeds param->lambda with 0.5 /
max branch length in every slot, runs the family loop, and finally
restores temp_range both onto the tree (copy_range_to_tree) and into
the session parameter block. -/
def cafe_each_best_lambda_by_fminsearch (forced : ℕ → family_size_range)
    (optimize : ℕ → List ℚ → List ℚ) (lambda_len : ℕ) (maxbl : ℚ)
    (fams : List CafeFamilyItem) (family_size0 tree_range0 : family_size_range) :
    EachState :=
  let temp_range := family_size0
  let st0 : EachState :=
    { reslam := [], resmu := [],
      cur := List.replicate lambda_len (1 / 2 / maxbl),
      family_size := family_size0, tree_range := tree_range0, optCalls := 0 }
  let st := eachGo forced optimize lambda_len fams 0 st0
  { st with tree_range := temp_range, family_size := temp_range }

lemma init_le_foldl_max : ∀ (l : List ℝ) (a : ℝ), a ≤ l.foldl max a := by
  intro l
  induction l with
  | nil => intro a; exact le_refl a
  | cons x xs ih =>
    intro a
    exact le_trans (le_max_left a x) (ih (max a x))

lemma mem_le_foldl_max : ∀ (l : List ℝ) (a x : ℝ), x ∈ l → x ≤ l.foldl max a := by
  intro l
  induction l with
  | nil => intro a x hx; cases hx
  | cons y ys ih =>
    intro a x hx
    rcases List.mem_cons.1 hx with h | h
    · subst h
      exact le_trans (le_max_right a x) (init_le_foldl_max ys (max a x))
    · exact ih (max a y) x h

lemma le_listMax (l : List ℝ) (x : ℝ) (hx : x ∈ l) : x ≤ listMax l := by
  cases l with
  | nil => cases hx
  | cons y ys =>
    rcases List.mem_cons.1 hx with h | h
    · subst h; exact init_le_foldl_max ys x
    · exact mem_le_foldl_max ys y x h

lemma foldl_max_zero : ∀ (l : List ℝ), (∀ x ∈ l, x = 0) → l.foldl max 0 = 0 := by
  intro l
  induction l with
  | nil => intro _; rfl
  | cons x xs ih =>
    intro h
    have hx : x = 0 := h x (List.mem_cons_self x xs)
    have hxs : ∀ y ∈ xs, y = 0 := fun y hy => h y (List.mem_cons_of_mem x hy)
    simp only [List.foldl_cons, hx, max_self]
    exact ih hxs

lemma listMax_all_zero (l : List ℝ) (h : ∀ x ∈ l, x = 0) : listMax l = 0 := by
  cases l with
  | nil => rfl
  | cons x xs =>
    have hx : x = 0 := h x (List.mem_cons_self x xs)
    have hxs : ∀ y ∈ xs, y = 0 := fun y hy => h y (List.mem_cons_of_mem x hy)
    show xs.foldl max x = 0
    rw [hx]
    exact foldl_max_zero xs hxs

lemma elog_nonpos {x : ℝ} (h : x ≤ 0) : elog x = ⊥ := by
  unfold elog; rw [if_pos h]

lemma elog_zero : elog 0 = ⊥ := elog_nonpos le_rfl

lemma elog_ne_top (x : ℝ) : elog x ≠ ⊤ := by
  unfold elog
  by_cases h : x ≤ 0
  · rw [if_pos h]; exact bot_ne_top
  · rw [if_neg h]; exact EReal.coe_ne_top _

lemma eexp_bot : eexp ⊥ = 0 := by
  unfold eexp; rw [if_pos rfl]

lemma getD_take_eq : ∀ (l : List ℝ) (n j : ℕ), j < n → (l.take n).getD j 0 = l.getD j 0 := by
  intro l
  induction l with
  | nil => intro n j _; simp
  | cons x xs ih =>
    intro n j hj
    cases n with
    | zero => cases hj
    | succ n =>
      cases j with
      | zero => simp [List.take]
      | succ j =>
        simp only [List.take, List.getD_cons_succ]
        exact ih n j (Nat.lt_of_succ_lt_succ hj)

lemma getD_le_of_listMax_zero (l : List ℝ) (j : ℕ) (h : listMax l = 0) :
    l.getD j 0 ≤ 0 := by
  by_cases hj : j < l.length
  · rw [List.getD_eq_getElem l 0 hj]
    exact h ▸ le_listMax l _ (List.getElem_mem hj)
  · rw [List.getD_eq_default l 0 (Nat.le_of_not_lt hj)]

/-- Zero link inside compute_posterior: a zero max likelihood forces a
zero max posterior, because every posterior entry has a log(0) factor. -/
lemma compute_posterior_zero_link (l : List ℝ) (n : ℕ) (p : List ℝ) (m : Int)
    (h : (compute_posterior l n p m).1.max_likelihood = 0) :
    (compute_posterior l n p m).1.max_posterior = 0 := by
  have hml : listMax (l.take n) = 0 := h
  show listMax ((List.range n).map
    (fun j => eexp (elog (l.getD j 0) + elog (p.getD j 0)))) = 0
  apply listMax_all_zero
  intro x hx
  rcases List.mem_map.1 hx with ⟨j, hj, rfl⟩
  have hjn : j < n := List.mem_range.1 hj
  have hle : l.getD j 0 ≤ 0 := by
    have := getD_le_of_listMax_zero (l.take n) j hml
    rwa [getD_take_eq l n j hjn] at this
  rw [elog_nonpos hle, EReal.bot_add, eexp_bot]

lemma scoreFrom_cons (sc : EReal) (p : ℝ) (ps : List ℝ) :
    scoreFrom sc (p :: ps) = scoreFrom (sc + elog p) ps := rfl

lemma scoreFrom_bot : ∀ (ps : List ℝ), scoreFrom ⊥ ps = ⊥ := by
  intro ps
  induction ps with
  | nil => rfl
  | cons p ps ih => rw [scoreFrom_cons, EReal.bot_add]; exact ih

lemma scoreFrom_of_mem_nonpos :
    ∀ (ps : List ℝ) (sc : EReal), (∃ p ∈ ps, p ≤ 0) → scoreFrom sc ps = ⊥ := by
  intro ps
  induction ps with
  | nil => intro sc h; rcases h with ⟨p, hp, _⟩; cases hp
  | cons q qs ih =>
    intro sc h
    rcases h with ⟨p, hp, hple⟩
    rcases List.mem_cons.1 hp with rfl | hmem
    · rw [scoreFrom_cons, elog_nonpos hple, EReal.add_bot]
      exact scoreFrom_bot qs
    · rw [scoreFrom_cons]
      exact ih _ ⟨p, hmem, hple⟩

lemma postsGo_length (Lf : ℕ → List ℝ) (rfsize : ℕ) (prior : List ℝ) :
    ∀ (rest : List CafeFamilyItem) (i : ℕ) (fml fmp : List ℝ),
      (postsGo Lf rfsize prior rest i fml fmp).1.length = rest.length ∧
      (postsGo Lf rfsize prior rest i fml fmp).2.length = rest.length := by
  intro rest
  induction rest with
  | nil => intro i fml fmp; exact ⟨rfl, rfl⟩
  | cons pitem rest ih =>
    intro i fml fmp
    unfold postsGo
    constructor
    · simp only [List.length_cons]
      exact congrArg Nat.succ (ih _ _ _).1
    · simp only [List.length_cons]
      exact congrArg Nat.succ (ih _ _ _).2

/-- When no max-likelihood entry produced along the walk is zero, the
loop of get_posterior completes without throwing and returns the
accumulated score. -/
lemma gpGo_ok_of_nonzero (Lf : ℕ → List ℝ) (rfsize : ℕ) (prior : List ℝ) :
    ∀ (rest : List CafeFamilyItem) (i : ℕ) (fml fmp : List ℝ) (sc : EReal),
      (∀ x ∈ (postsGo Lf rfsize prior rest i fml fmp).1, x ≠ 0) →
      gpGo Lf rfsize prior rest i fml fmp sc =
        Except.ok (specScoreGo Lf rfsize prior rest i fml fmp sc) := by
  intro rest
  induction rest with
  | nil => intro i fml fmp sc _; rfl
  | cons pitem rest ih =>
    intro i fml fmp sc h
    have hhd : (gpPair Lf rfsize prior pitem i fml fmp).1 ≠ 0 := by
      apply h
      unfold postsGo
      exact List.mem_cons_self _ _
    have htl : ∀ x ∈ (postsGo Lf rfsize prior rest (i + 1)
        (fml ++ [(gpPair Lf rfsize prior pitem i fml fmp).1])
        (fmp ++ [(gpPair Lf rfsize prior pitem i fml fmp).2])).1, x ≠ 0 := by
      intro x hx
      apply h
      unfold postsGo
      exact List.mem_cons_of_mem _ hx
    show (if (gpPair Lf rfsize prior pitem i fml fmp).1 = 0 then _ else _) = _
    rw [if_neg hhd]
    exact ih _ _ _ _ htl

lemma specScoreGo_eq_scoreFrom (Lf : ℕ → List ℝ) (rfsize : ℕ) (prior : List ℝ) :
    ∀ (rest : List CafeFamilyItem) (i : ℕ) (fml fmp : List ℝ) (sc : EReal),
      specScoreGo Lf rfsize prior rest i fml fmp sc =
        scoreFrom sc (postsGo Lf rfsize prior rest i fml fmp).2 := by
  intro rest
  induction rest with
  | nil => intro i fml fmp sc; rfl
  | cons pitem rest ih =>
    intro i fml fmp sc
    unfold specScoreGo postsGo
    rw [scoreFrom_cons]
    exact ih _ _ _ _

/-- When some max-likelihood entry produced along the walk is zero, the
loop of get_posterior throws, and the error names the family at the
first zero position. -/
lemma gpGo_error_of_zero (Lf : ℕ → List ℝ) (rfsize : ℕ) (prior : List ℝ) :
    ∀ (rest : List CafeFamilyItem) (i : ℕ) (fml fmp : List ℝ) (sc : EReal),
      (∃ x ∈ (postsGo Lf rfsize prior rest i fml fmp).1, x = 0) →
      ∃ j, j < rest.length ∧
        (postsGo Lf rfsize prior rest i fml fmp).1.getD j 0 = 0 ∧
        gpGo Lf rfsize prior rest i fml fmp sc =
          Except.error (zeroPosteriorMsg ((rest.getD j default).id)) := by
  intro rest
  induction rest with
  | nil => intro i fml fmp sc h; rcases h with ⟨x, hx, _⟩; cases hx
  | cons pitem rest ih =>
    intro i fml fmp sc h
    by_cases hhd : (gpPair Lf rfsize prior pitem i fml fmp).1 = 0
    · refine ⟨0, Nat.succ_pos _, ?_, ?_⟩
      · show (gpPair Lf rfsize prior pitem i fml fmp).1 = 0
        exact hhd
      · show (if (gpPair Lf rfsize prior pitem i fml fmp).1 = 0 then _ else _) = _
        rw [if_pos hhd, List.getD_cons_zero]
    · have htl : ∃ x ∈ (postsGo Lf rfsize prior rest (i + 1)
          (fml ++ [(gpPair Lf rfsize prior pitem i fml fmp).1])
          (fmp ++ [(gpPair Lf rfsize prior pitem i fml fmp).2])).1, x = 0 := by
        rcases h with ⟨x, hx, hx0⟩
        have hx2 : x ∈ (gpPair Lf rfsize prior pitem i fml fmp).1 ::
            (postsGo Lf rfsize prior rest (i + 1)
              (fml ++ [(gpPair Lf rfsize prior pitem i fml fmp).1])
              (fmp ++ [(gpPair Lf rfsize prior pitem i fml fmp).2])).1 := hx
        rcases List.mem_cons.1 hx2 with rfl | hmem
        · exact absurd hx0 hhd
        · exact ⟨x, hmem, hx0⟩
      rcases ih (i + 1) _ _
          (sc + elog (gpPair Lf rfsize prior pitem i fml fmp).2) htl with ⟨j, hj, hz, herr⟩
      refine ⟨j + 1, Nat.succ_lt_succ hj, ?_, ?_⟩
      · show ((gpPair Lf rfsize prior pitem i fml fmp).1 :: _).getD (j + 1) 0 = 0
        rw [List.getD_cons_succ]
        exact hz
      · show (if (gpPair Lf rfsize prior pitem i fml fmp).1 = 0 then _ else _) = _
        rw [if_neg hhd, List.getD_cons_succ]
        exact herr

/-- Zero link along the walk: wherever the produced max-likelihood list
is zero, the produced max-posterior list is zero too, provided the
already-assigned prefixes are so linked. -/
lemma postsGo_zero_link (Lf : ℕ → List ℝ) (rfsize : ℕ) (prior : List ℝ) :
    ∀ (rest : List CafeFamilyItem) (i : ℕ) (fml fmp : List ℝ),
      fml.length = fmp.length →
      (∀ k, fml.getD k 0 = 0 → fmp.getD k 0 = 0) →
      ∀ j, (postsGo Lf rfsize prior rest i fml fmp).1.getD j 0 = 0 →
        (postsGo Lf rfsize prior rest i fml fmp).2.getD j 0 = 0 := by
  intro rest
  induction rest with
  | nil =>
    intro i fml fmp _ _ j hj
    simp only [postsGo] at hj ⊢
    simp
  | cons pitem rest ih =>
    intro i fml fmp hlen hlink j hj
    have hpair : (gpPair Lf rfsize prior pitem i fml fmp).1 = 0 →
        (gpPair Lf rfsize prior pitem i fml fmp).2 = 0 := by
      intro h1
      unfold gpPair at h1 ⊢
      by_cases hc : pitem.ref < 0 ∨ pitem.ref = (i : Int)
      · rw [if_pos hc] at h1 ⊢
        exact compute_posterior_zero_link (Lf i) rfsize prior pitem.maxlh h1
      · rw [if_neg hc] at h1 ⊢
        exact hlink _ h1
    cases j with
    | zero =>
      have h1 : (gpPair Lf rfsize prior pitem i fml fmp).1 = 0 := by
        simpa only [postsGo, List.getD_cons_zero] using hj
      show ((gpPair Lf rfsize prior pitem i fml fmp).2 :: _).getD 0 0 = 0
      rw [List.getD_cons_zero]
      exact hpair h1
    | succ j =>
      have hj2 : (postsGo Lf rfsize prior rest (i + 1)
          (fml ++ [(gpPair Lf rfsize prior pitem i fml fmp).1])
          (fmp ++ [(gpPair Lf rfsize prior pitem i fml fmp).2])).1.getD j 0 = 0 := by
        simpa only [postsGo, List.getD_cons_succ] using hj
      have hlen2 : (fml ++ [(gpPair Lf rfsize prior pitem i fml fmp).1]).length =
          (fmp ++ [(gpPair Lf rfsize prior pitem i fml fmp).2]).length := by
        simp [hlen]
      have hlink2 : ∀ k, (fml ++ [(gpPair Lf rfsize prior pitem i fml fmp).1]).getD k 0 = 0 →
          (fmp ++ [(gpPair Lf rfsize prior pitem i fml fmp).2]).getD k 0 = 0 := by
        intro k hk
        rcases lt_trichotomy k fml.length with hlt | heq | hgt
        · rw [List.getD_append _ _ _ _ hlt] at hk
          rw [List.getD_append _ _ _ _ (hlen ▸ hlt)]
          exact hlink k hk
        · subst heq
          rw [List.getD_append_right _ _ _ _ le_rfl, Nat.sub_self,
            List.getD_cons_zero] at hk
          rw [hlen, List.getD_append_right _ _ _ _ le_rfl, Nat.sub_self,
            List.getD_cons_zero]
          exact hpair hk
        · rw [List.getD_eq_default]
          simp only [List.length_append, List.length_singleton]
          rw [← hlen]
          omega
      show ((gpPair Lf rfsize prior pitem i fml fmp).2 :: _).getD (j + 1) 0 = 0
      rw [List.getD_cons_succ]
      exact ih (i + 1) _ _ hlen2 hlink2 j hj2

/-- Characterization of the walk at a non-duplicate position: the entry
is the compute_posterior result of that family. -/
lemma postsGo_getD_compute (Lf : ℕ → List ℝ) (rfsize : ℕ) (prior : List ℝ) :
    ∀ (rest : List CafeFamilyItem) (i : ℕ) (fml fmp : List ℝ) (j : ℕ),
      j < rest.length →
      ((rest.getD j default).ref < 0 ∨ (rest.getD j default).ref = ((i + j : ℕ) : Int)) →
      (postsGo Lf rfsize prior rest i fml fmp).1.getD j 0 =
        (compute_posterior (Lf (i + j)) rfsize prior
          (rest.getD j default).maxlh).1.max_likelihood ∧
      (postsGo Lf rfsize prior rest i fml fmp).2.getD j 0 =
        (compute_posterior (Lf (i + j)) rfsize prior
          (rest.getD j default).maxlh).1.max_posterior := by
  intro rest
  induction rest with
  | nil => intro i fml fmp j hj; cases hj
  | cons pitem rest ih =>
    intro i fml fmp j hj hc
    cases j with
    | zero =>
      rw [List.getD_cons_zero] at hc ⊢
      have hpair : gpPair Lf rfsize prior pitem i fml fmp =
          ((compute_posterior (Lf i) rfsize prior pitem.maxlh).1.max_likelihood,
           (compute_posterior (Lf i) rfsize prior pitem.maxlh).1.max_posterior) := by
        unfold gpPair
        rw [if_pos (by simpa using hc)]
      constructor
      · show ((gpPair Lf rfsize prior pitem i fml fmp).1 :: _).getD 0 0 = _
        rw [List.getD_cons_zero, hpair]
        simp
      · show ((gpPair Lf rfsize prior pitem i fml fmp).2 :: _).getD 0 0 = _
        rw [List.getD_cons_zero, hpair]
        simp
    | succ j =>
      rw [List.getD_cons_succ] at hc ⊢
      have hc2 : (rest.getD j default).ref < 0 ∨
          (rest.getD j default).ref = (((i + 1) + j : ℕ) : Int) := by
        rcases hc with h | h
        · exact Or.inl h
        · right; rw [h]; congr 1; omega
      have := ih (i + 1)
        (fml ++ [(gpPair Lf rfsize prior pitem i fml fmp).1])
        (fmp ++ [(gpPair Lf rfsize prior pitem i fml fmp).2]) j
        (Nat.lt_of_succ_lt_succ hj) hc2
      have heq : (i + 1) + j = i + (j + 1) := by omega
      rw [heq] at this
      constructor
      · show ((gpPair Lf rfsize prior pitem i fml fmp).1 :: _).getD (j + 1) 0 = _
        rw [List.getD_cons_succ]
        exact this.1
      · show ((gpPair Lf rfsize prior pitem i fml fmp).2 :: _).getD (j + 1) 0 = _
        rw [List.getD_cons_succ]
        exact this.2

/-- Characterization of the walk at a duplicate position referring to
an earlier absolute index: the entry is a copy of the entry at the
referenced index of the full assigned vectors. -/
lemma postsGo_getD_dup (Lf : ℕ → List ℝ) (rfsize : ℕ) (prior : List ℝ) :
    ∀ (rest : List CafeFamilyItem) (i : ℕ) (fml fmp : List ℝ) (j : ℕ),
      j < rest.length → fml.length = i → fmp.length = i →
      0 ≤ (rest.getD j default).ref →
      (rest.getD j default).ref.toNat < i + j →
      (postsGo Lf rfsize prior rest i fml fmp).1.getD j 0 =
        (fml ++ (postsGo Lf rfsize prior rest i fml fmp).1).getD
          (rest.getD j default).ref.toNat 0 ∧
      (postsGo Lf rfsize prior rest i fml fmp).2.getD j 0 =
        (fmp ++ (postsGo Lf rfsize prior rest i fml fmp).2).getD
          (rest.getD j default).ref.toNat 0 := by
  intro rest
  induction rest with
  | nil => intro i fml fmp j hj; cases hj
  | cons pitem rest ih =>
    intro i fml fmp j hj hl1 hl2 href hlt
    cases j with
    | zero =>
      rw [List.getD_cons_zero] at href hlt ⊢
      have hrefi : pitem.ref ≠ (i : Int) := by
        intro h
        rw [h] at hlt
        simp at hlt
      have hpair : gpPair Lf rfsize prior pitem i fml fmp =
          (fml.getD pitem.ref.toNat 0, fmp.getD pitem.ref.toNat 0) := by
        unfold gpPair
        rw [if_neg]
        push_neg
        exact ⟨href, hrefi⟩
      rw [Nat.add_zero] at hlt
      constructor
      · show ((gpPair Lf rfsize prior pitem i fml fmp).1 :: _).getD 0 0 = _
        rw [List.getD_cons_zero, hpair, List.getD_append _ _ _ _ (hl1 ▸ hlt)]
      · show ((gpPair Lf rfsize prior pitem i fml fmp).2 :: _).getD 0 0 = _
        rw [List.getD_cons_zero, hpair, List.getD_append _ _ _ _ (hl2 ▸ hlt)]
    | succ j =>
      rw [List.getD_cons_succ] at href hlt ⊢
      have hlt2 : (rest.getD j default).ref.toNat < (i + 1) + j := by omega
      have hl12 : (fml ++ [(gpPair Lf rfsize prior pitem i fml fmp).1]).length = i + 1 := by
        simp [hl1]
      have hl22 : (fmp ++ [(gpPair Lf rfsize prior pitem i fml fmp).2]).length = i + 1 := by
        simp [hl2]
      have := ih (i + 1)
        (fml ++ [(gpPair Lf rfsize prior pitem i fml fmp).1])
        (fmp ++ [(gpPair Lf rfsize prior pitem i fml fmp).2]) j
        (Nat.lt_of_succ_lt_succ hj) hl12 hl22 href hlt2
      constructor
      · show ((gpPair Lf rfsize prior pitem i fml fmp).1 :: _).getD (j + 1) 0 = _
        rw [List.getD_cons_succ, this.1, List.append_assoc, List.singleton_append]
        rfl
      · show ((gpPair Lf rfsize prior pitem i fml fmp).2 :: _).getD (j + 1) 0 = _
        rw [List.getD_cons_succ, this.2, List.append_assoc, List.singleton_append]
        rfl

lemma scoreOf_bot_of_getD_zero (FP : List ℝ) (j : ℕ) (hj : j < FP.length)
    (hz : FP.getD j 0 = 0) : scoreOf FP = ⊥ := by
  apply scoreFrom_of_mem_nonpos
  refine ⟨FP.getD j 0, ?_, le_of_eq hz⟩
  rw [List.getD_eq_getElem FP 0 hj]
  exact List.getElem_mem hj

/-- C1: the posterior score is total: with every rate component
nonnegative the search value is the negated sum over families of the
log of the familywise max over root sizes of exp(log likelihood + log
prior), duplicate-reference families reusing the referenced
contribution; with any negative component it is the negated log(0)
penalty (the maximal objective value, top), with no error escaping. -/
theorem C1_posterior_score_total (plambda : List ℝ) (num_lambdas : ℕ)
    (pfamily : List CafeFamilyItem) (L : List ℝ → ℕ → List ℝ)
    (rfsize : ℕ) (prior : List ℝ) :
    ((∃ i < num_lambdas, plambda.getD i 0 < 0) →
      __cafe_best_lambda_search plambda num_lambdas pfamily L rfsize prior = -(elog 0) ∧
      -(elog 0) = (⊤ : EReal)) ∧
    ((∀ i < num_lambdas, 0 ≤ plambda.getD i 0) →
      __cafe_best_lambda_search plambda num_lambdas pfamily L rfsize prior =
        -(scoreOf (postsAll pfamily (L plambda) rfsize prior).2)) ∧
    (∀ j, j < pfamily.length →
      0 ≤ (pfamily.getD j default).ref → (pfamily.getD j default).ref.toNat < j →
      (postsAll pfamily (L plambda) rfsize prior).2.getD j 0 =
        (postsAll pfamily (L plambda) rfsize prior).2.getD
          (pfamily.getD j default).ref.toNat 0) ∧
    (∀ j, j < pfamily.length →
      ((pfamily.getD j default).ref < 0 ∨ (pfamily.getD j default).ref = (j : Int)) →
      (postsAll pfamily (L plambda) rfsize prior).2.getD j 0 =
        listMax ((List.range rfsize).map (fun s =>
          eexp (elog ((L plambda j).getD s 0) + elog (prior.getD s 0))))) := by
  refine ⟨?_, ?_, ?_, ?_⟩
  · intro h
    unfold __cafe_best_lambda_search
    rw [if_pos h]
    exact ⟨rfl, by rw [elog_zero]; exact EReal.neg_bot⟩
  · intro h
    have hneg : ¬∃ i < num_lambdas, plambda.getD i 0 < 0 := by
      rintro ⟨i, hi, hlt⟩
      exact absurd (h i hi) (not_le.2 hlt)
    unfold __cafe_best_lambda_search
    rw [if_neg hneg]
    by_cases hz : ∃ x ∈ (postsGo (L plambda) rfsize prior pfamily 0 [] []).1, x = 0
    · rcases gpGo_error_of_zero (L plambda) rfsize prior pfamily 0 [] [] 0 hz with
        ⟨j, hj, hz0, herr⟩
      have hgp : get_posterior pfamily (L plambda) rfsize prior =
          Except.error (zeroPosteriorMsg ((pfamily.getD j default).id)) := herr
      rw [hgp]
      have hlink : ∀ k : ℕ, (List.nil (α := ℝ)).getD k 0 = 0 →
          (List.nil (α := ℝ)).getD k 0 = 0 := fun _ h => h
      have hz2 : (postsGo (L plambda) rfsize prior pfamily 0 [] []).2.getD j 0 = 0 :=
        postsGo_zero_link (L plambda) rfsize prior pfamily 0 [] [] rfl hlink j hz0
      have hjl : j < (postsGo (L plambda) rfsize prior pfamily 0 [] []).2.length := by
        rw [(postsGo_length (L plambda) rfsize prior pfamily 0 [] []).2]
        exact hj
      have hbot : scoreOf (postsAll pfamily (L plambda) rfsize prior).2 = ⊥ :=
        scoreOf_bot_of_getD_zero _ j hjl hz2
      rw [hbot, elog_zero]
    · have hnz : ∀ x ∈ (postsGo (L plambda) rfsize prior pfamily 0 [] []).1, x ≠ 0 := by
        intro x hx hx0
        exact hz ⟨x, hx, hx0⟩
      have hgp : get_posterior pfamily (L plambda) rfsize prior =
          Except.ok (specScoreGo (L plambda) rfsize prior pfamily 0 [] [] 0) :=
        gpGo_ok_of_nonzero (L plambda) rfsize prior pfamily 0 [] [] 0 hnz
      rw [hgp]
      show -(specScoreGo (L plambda) rfsize prior pfamily 0 [] [] 0) = _
      rw [specScoreGo_eq_scoreFrom]
      rfl
  · intro j hj href hlt
    have := postsGo_getD_dup (L plambda) rfsize prior pfamily 0 [] [] j hj rfl rfl href
      (by simpa using hlt)
    have h2 := this.2
    rw [List.nil_append] at h2
    exact h2
  · intro j hj hc
    have hc2 : (pfamily.getD j default).ref < 0 ∨
        (pfamily.getD j default).ref = ((0 + j : ℕ) : Int) := by
      simpa using hc
    have := (postsGo_getD_compute (L plambda) rfsize prior pfamily 0 [] [] j hj hc2).2
    rw [Nat.zero_add] at this
    exact this

/-- Witness for C1 at a concrete one-family input with likelihood [1]
and prior [1] and the nonnegative rate vector [1]. -/
theorem C1_posterior_score_total_witness :
    (∀ i < 1, (0 : ℝ) ≤ ([(1 : ℝ)]).getD i 0) ∧
    __cafe_best_lambda_search [(1 : ℝ)] 1 [⟨"fam1", [], -1, -1⟩]
        (fun _ _ => [(1 : ℝ)]) 1 [(1 : ℝ)] =
      -(scoreOf (postsAll [⟨"fam1", [], -1, -1⟩]
        ((fun _ _ => [(1 : ℝ)]) [(1 : ℝ)]) 1 [(1 : ℝ)]).2) := by
  have hyp : ∀ i < 1, (0 : ℝ) ≤ ([(1 : ℝ)]).getD i 0 := by
    intro i hi
    have : i = 0 := by omega
    subst this
    norm_num
  exact ⟨hyp, (C1_posterior_score_total [(1 : ℝ)] 1 [⟨"fam1", [], -1, -1⟩]
    (fun _ _ => [(1 : ℝ)]) 1 [(1 : ℝ)]).2.1 hyp⟩

lemma gpGo_singleton (Lf : ℕ → List ℝ) (rfsize : ℕ) (prior : List ℝ)
    (pitem : CafeFamilyItem) (i : ℕ) (fml fmp : List ℝ) (sc : EReal) :
    gpGo Lf rfsize prior [pitem] i fml fmp sc =
      if (gpPair Lf rfsize prior pitem i fml fmp).1 = 0
      then Except.error (zeroPosteriorMsg pitem.id)
      else Except.ok (sc + elog (gpPair Lf rfsize prior pitem i fml fmp).2) := by
  by_cases h : (gpPair Lf rfsize prior pitem i fml fmp).1 = 0
  · rw [if_pos h]
    show (if (gpPair Lf rfsize prior pitem i fml fmp).1 = 0 then _ else _) = _
    rw [if_pos h]
  · rw [if_neg h]
    show (if (gpPair Lf rfsize prior pitem i fml fmp).1 = 0 then _ else _) = _
    rw [if_neg h]
    rfl

lemma elog_one : elog (1 : ℝ) = ((0 : ℝ) : EReal) := by
  unfold elog
  rw [if_neg (by norm_num), Real.log_one]

/-- Concrete evaluation: with likelihood vector [1, 0] and prior [0, 1]
the best posterior is exactly 0 while the best likelihood is 1. -/
lemma cp_eval_mixed :
    (compute_posterior [(1 : ℝ), 0] 2 [(0 : ℝ), 1] (-1)).1.max_posterior = 0 ∧
    (compute_posterior [(1 : ℝ), 0] 2 [(0 : ℝ), 1] (-1)).1.max_likelihood = 1 := by
  constructor
  · show listMax ((List.range 2).map (fun j =>
      eexp (elog (([(1 : ℝ), 0]).getD j 0) + elog (([(0 : ℝ), 1]).getD j 0)))) = 0
    have hr : List.range 2 = [0, 1] := rfl
    rw [hr]
    simp only [List.map_cons, List.map_nil, List.getD_cons_zero, List.getD_cons_succ]
    rw [elog_one, elog_zero, EReal.add_bot, EReal.bot_add]
    simp [eexp_bot, listMax]
  · show listMax (([(1 : ℝ), 0]).take 2) = 1
    show max 1 0 = 1
    norm_num

lemma cp_eval_zero :
    (compute_posterior [(0 : ℝ)] 1 [(1 : ℝ)] (-1)).1.max_likelihood = 0 := rfl

lemma gpPair_nodup (Lf : ℕ → List ℝ) (rfsize : ℕ) (prior : List ℝ)
    (id : String) (cnt : List Int) (i : ℕ) (fml fmp : List ℝ) :
    gpPair Lf rfsize prior ⟨id, cnt, -1, -1⟩ i fml fmp =
      ((compute_posterior (Lf i) rfsize prior (-1)).1.max_likelihood,
       (compute_posterior (Lf i) rfsize prior (-1)).1.max_posterior) := by
  unfold gpPair
  rw [if_pos (Or.inl (by norm_num : ((-1 : Int) < 0)))]

/-- C2 counterexample: a family whose best posterior is exactly 0 (its
likelihood and prior vectors have disjoint support) does not make the
evaluation fatal: get_posterior returns normally with score bottom.
Moreover when get_posterior does throw (best likelihood 0), the search
catches the error and returns the maximal penalty value instead of
aborting. -/
theorem C2_counterexample :
    (compute_posterior [(1 : ℝ), 0] 2 [(0 : ℝ), 1] (-1)).1.max_posterior = 0 ∧
    get_posterior [⟨"famz", [], -1, -1⟩] (fun _ => [(1 : ℝ), 0]) 2 [(0 : ℝ), 1] =
      Except.ok (⊥ : EReal) ∧
    __cafe_best_lambda_search [(1 : ℝ)] 1 [⟨"famz", [], -1, -1⟩]
      (fun _ _ => [(0 : ℝ)]) 1 [(1 : ℝ)] = (⊤ : EReal) := by
  refine ⟨cp_eval_mixed.1, ?_, ?_⟩
  · show gpGo (fun _ => [(1 : ℝ), 0]) 2 [(0 : ℝ), 1] [⟨"famz", [], -1, -1⟩] 0 [] [] 0 =
      Except.ok (⊥ : EReal)
    rw [gpGo_singleton, gpPair_nodup]
    rw [if_neg (by rw [cp_eval_mixed.2]; norm_num)]
    rw [cp_eval_mixed.1, elog_zero, EReal.add_bot]
  · unfold __cafe_best_lambda_search
    rw [if_neg]
    · have hgp : get_posterior [⟨"famz", [], -1, -1⟩] ((fun _ _ => [(0 : ℝ)]) [(1 : ℝ)])
          1 [(1 : ℝ)] = Except.error (zeroPosteriorMsg "famz") := by
        show gpGo (fun _ => [(0 : ℝ)]) 1 [(1 : ℝ)] [⟨"famz", [], -1, -1⟩] 0 [] [] 0 = _
        rw [gpGo_singleton, gpPair_nodup]
        rw [if_pos cp_eval_zero]
      rw [hgp, elog_zero, EReal.neg_bot]
    · rintro ⟨i, hi, hlt⟩
      have : i = 0 := by omega
      subst this
      simp only [List.getD_cons_zero] at hlt
      exact absurd hlt (by norm_num)

/-- C2 amended: the evaluation throws exactly when some family has best
likelihood 0 (in which case its best posterior is also 0); the error
names such a family, and the surrounding search catches the error and
scores the rate vector with the log(0) penalty, continuing instead of
aborting. -/
theorem C2_zero_posterior_error (plambda : List ℝ) (num_lambdas : ℕ)
    (pfamily : List CafeFamilyItem) (L : List ℝ → ℕ → List ℝ)
    (rfsize : ℕ) (prior : List ℝ) :
    ((∃ e, get_posterior pfamily (L plambda) rfsize prior = Except.error e) ↔
      ∃ j, j < pfamily.length ∧
        (postsAll pfamily (L plambda) rfsize prior).1.getD j 0 = 0) ∧
    (∀ e, get_posterior pfamily (L plambda) rfsize prior = Except.error e →
      ∃ j, j < pfamily.length ∧
        (postsAll pfamily (L plambda) rfsize prior).1.getD j 0 = 0 ∧
        (postsAll pfamily (L plambda) rfsize prior).2.getD j 0 = 0 ∧
        e = zeroPosteriorMsg ((pfamily.getD j default).id)) ∧
    (∀ e, get_posterior pfamily (L plambda) rfsize prior = Except.error e →
      __cafe_best_lambda_search plambda num_lambdas pfamily L rfsize prior =
        -(elog 0)) := by
  have hlen := postsGo_length (L plambda) rfsize prior pfamily 0 [] []
  have herrz : (∃ e, get_posterior pfamily (L plambda) rfsize prior = Except.error e) →
      ∃ x ∈ (postsGo (L plambda) rfsize prior pfamily 0 [] []).1, x = 0 := by
    rintro ⟨e, he⟩
    by_contra hz
    have hnz : ∀ x ∈ (postsGo (L plambda) rfsize prior pfamily 0 [] []).1, x ≠ 0 := by
      intro x hx hx0
      exact hz ⟨x, hx, hx0⟩
    have := gpGo_ok_of_nonzero (L plambda) rfsize prior pfamily 0 [] [] 0 hnz
    rw [show get_posterior pfamily (L plambda) rfsize prior =
      gpGo (L plambda) rfsize prior pfamily 0 [] [] 0 from rfl] at he
    rw [this] at he
    cases he
  refine ⟨⟨?_, ?_⟩, ?_, ?_⟩
  · intro he
    rcases gpGo_error_of_zero (L plambda) rfsize prior pfamily 0 [] [] 0 (herrz he) with
      ⟨j, hj, hz0, _⟩
    exact ⟨j, hj, hz0⟩
  · rintro ⟨j, hj, hz⟩
    have hjl : j < (postsGo (L plambda) rfsize prior pfamily 0 [] []).1.length := by
      rw [hlen.1]; exact hj
    have hmem : ∃ x ∈ (postsGo (L plambda) rfsize prior pfamily 0 [] []).1, x = 0 := by
      refine ⟨(postsGo (L plambda) rfsize prior pfamily 0 [] []).1.getD j 0, ?_, hz⟩
      rw [List.getD_eq_getElem _ 0 hjl]
      exact List.getElem_mem hjl
    rcases gpGo_error_of_zero (L plambda) rfsize prior pfamily 0 [] [] 0 hmem with
      ⟨j2, _, _, herr⟩
    exact ⟨zeroPosteriorMsg ((pfamily.getD j2 default).id), herr⟩
  · intro e he
    rcases gpGo_error_of_zero (L plambda) rfsize prior pfamily 0 [] [] 0 (herrz ⟨e, he⟩) with
      ⟨j, hj, hz0, herr⟩
    have hz2 : (postsGo (L plambda) rfsize prior pfamily 0 [] []).2.getD j 0 = 0 :=
      postsGo_zero_link (L plambda) rfsize prior pfamily 0 [] [] rfl (fun _ h => h) j hz0
    have heq : e = zeroPosteriorMsg ((pfamily.getD j default).id) := by
      rw [show get_posterior pfamily (L plambda) rfsize prior =
        gpGo (L plambda) rfsize prior pfamily 0 [] [] 0 from rfl] at he
      rw [herr] at he
      cases he
      rfl
    exact ⟨j, hj, hz0, hz2, heq⟩
  · intro e he
    unfold __cafe_best_lambda_search
    by_cases hneg : ∃ i < num_lambdas, plambda.getD i 0 < 0
    · rw [if_pos hneg]
    · rw [if_neg hneg, he]

/-- Witness for C2 amended at the concrete zero-likelihood family. -/
theorem C2_zero_posterior_error_witness :
    (∃ j, j < ([⟨"famz", [], -1, -1⟩] : List CafeFamilyItem).length ∧
      (postsAll [⟨"famz", [], -1, -1⟩] ((fun _ _ => [(0 : ℝ)]) [(1 : ℝ)])
        1 [(1 : ℝ)]).1.getD j 0 = 0) ∧
    (∃ e, get_posterior [⟨"famz", [], -1, -1⟩] ((fun _ _ => [(0 : ℝ)]) [(1 : ℝ)])
      1 [(1 : ℝ)] = Except.error e) := by
  have hz : (postsAll [⟨"famz", [], -1, -1⟩] ((fun _ _ => [(0 : ℝ)]) [(1 : ℝ)])
      1 [(1 : ℝ)]).1.getD 0 0 = 0 := by
    show ((gpPair (fun _ => [(0 : ℝ)]) 1 [(1 : ℝ)] ⟨"famz", [], -1, -1⟩ 0 [] []).1 ::
      _).getD 0 0 = 0
    rw [List.getD_cons_zero, gpPair_nodup]
    exact cp_eval_zero
  have hj : (0 : ℕ) < ([⟨"famz", [], -1, -1⟩] : List CafeFamilyItem).length := by norm_num
  exact ⟨⟨0, hj, hz⟩,
    (C2_zero_posterior_error [(1 : ℝ)] 1 [⟨"famz", [], -1, -1⟩]
      (fun _ _ => [(0 : ℝ)]) 1 [(1 : ℝ)]).1.mpr ⟨0, hj, hz⟩⟩

/-- C3 counterexample: with tolX = 1/100000, a previous first-weight
value of 5 and a step driving it to 0, the change has magnitude 5 (far
above tolX) yet the loop exits immediately, because the source tests
the signed difference current - prev, not its magnitude. -/
theorem C3_counterexample :
    em_weight_loop (fun _ => (0 : ℚ)) id (1 / 100000) 5 (5 : ℚ) 5 = some 0 ∧
    ¬(|(0 : ℚ) - 5| < 1 / 100000) := by
  constructor
  · show (if (id (0 : ℚ)) - 5 > 1 / 100000 then _ else _) = _
    rw [if_neg (by norm_num)]
  · norm_num

/-- C3 amended: one pass of the EM refinement loop exits exactly when
the signed change (new first-weight value minus previous value) is at
most tolX, so any decrease exits regardless of magnitude; it repeats
while the signed change exceeds tolX. -/
theorem C3_em_exit_signed {σ : Type} (step : σ → σ) (fw : σ → ℚ) (tolx : ℚ)
    (fuel : ℕ) (s : σ) (current_p : ℚ) :
    (fw (step s) - current_p ≤ tolx →
      em_weight_loop step fw tolx (fuel + 1) s current_p = some (step s)) ∧
    (fw (step s) - current_p > tolx →
      em_weight_loop step fw tolx (fuel + 1) s current_p =
        em_weight_loop step fw tolx fuel (step s) (fw (step s))) := by
  constructor
  · intro h
    show (if fw (step s) - current_p > tolx then _ else _) = _
    rw [if_neg (not_lt.2 h)]
  · intro h
    show (if fw (step s) - current_p > tolx then _ else _) = _
    rw [if_pos h]

/-- Witness for C3 amended: a concrete large decrease exits the loop. -/
theorem C3_em_exit_signed_witness :
    ((0 : ℚ) - 5 ≤ 1 / 100000) ∧
    em_weight_loop (fun _ => (0 : ℚ)) id (1 / 100000) 4 (5 : ℚ) 5 = some 0 := by
  refine ⟨by norm_num, ?_⟩
  exact (C3_em_exit_signed (fun _ => (0 : ℚ)) id (1 / 100000) 3 5 5).1 (by norm_num)

lemma lambda_runs_go_succ (f : ℕ → ℚ) (tolf : ℚ) (cc : Bool) (fuel runs : ℕ)
    (scores : List ℚ) :
    lambda_runs_go f tolf cc (fuel + 1) runs scores =
      if cc = true ∧
          (decide (0 < runs) && decide (|__min scores runs - f runs| < 10 * tolf)) = false ∧
          runs + 1 < 10
      then lambda_runs_go f tolf cc fuel (runs + 1) (scores ++ [f runs])
      else (runs + 1, decide (0 < runs) && decide (|__min scores runs - f runs| < 10 * tolf)) :=
  rfl

lemma lambda_runs_go_le (f : ℕ → ℚ) (tolf : ℚ) (cc : Bool) :
    ∀ (fuel runs : ℕ) (scores : List ℚ), runs + fuel = 10 →
      (lambda_runs_go f tolf cc fuel runs scores).1 ≤ 10 := by
  intro fuel
  induction fuel with
  | zero => intro runs scores h; simpa [lambda_runs_go] using Nat.le_of_eq h
  | succ fuel ih =>
    intro runs scores h
    rw [lambda_runs_go_succ]
    by_cases hc : cc = true ∧
        (decide (0 < runs) && decide (|__min scores runs - f runs| < 10 * tolf)) = false ∧
        runs + 1 < 10
    · rw [if_pos hc]
      exact ih (runs + 1) _ (by omega)
    · rw [if_neg hc]
      show runs + 1 ≤ 10
      omega

/-- C4: the convergence supervisor caps the search at 10 runs; at every
run beyond the first it declares convergence exactly when the absolute
difference between the new best score and the minimum of all previous
scores is below 10 x tolF (exiting immediately on convergence,
continuing otherwise until the cap); a constant scoring function
converges after exactly 2 runs; and either outcome yields only a log
line (the function returns normally in both cases). -/
theorem C4_convergence_supervisor (f : ℕ → ℚ) (tolf : ℚ) (checkconv : Bool) (c : ℚ) :
    (cafe_best_lambda_runs f tolf checkconv).1 ≤ 10 ∧
    (∀ (fuel runs : ℕ) (scores : List ℚ), 0 < runs →
      lambda_runs_go f tolf true (fuel + 1) runs scores =
        if |__min scores runs - f runs| < 10 * tolf then (runs + 1, true)
        else if runs + 1 < 10 then
          lambda_runs_go f tolf true fuel (runs + 1) (scores ++ [f runs])
        else (runs + 1, false)) ∧
    (0 < tolf → cafe_best_lambda_runs (fun _ => c) tolf true = (2, true)) ∧
    ((cafe_best_lambda_runs f tolf checkconv).2 = false →
      convergenceVerdict (cafe_best_lambda_runs f tolf checkconv) =
        "score failed to converge in " ++ toString (10 : ℕ) ++ " runs.\n") ∧
    ((cafe_best_lambda_runs f tolf checkconv).2 = true →
      convergenceVerdict (cafe_best_lambda_runs f tolf checkconv) =
        "score converged in " ++ toString (cafe_best_lambda_runs f tolf checkconv).1 ++
          " runs.\n") := by
  refine ⟨lambda_runs_go_le f tolf checkconv 10 0 [] rfl, ?_, ?_, ?_, ?_⟩
  · intro fuel runs scores h0
    rw [lambda_runs_go_succ]
    have hd0 : decide (0 < runs) = true := decide_eq_true h0
    by_cases hlt : |__min scores runs - f runs| < 10 * tolf
    · have hdc : decide (|__min scores runs - f runs| < 10 * tolf) = true :=
        decide_eq_true hlt
      rw [hd0, hdc, if_pos hlt, if_neg]
      · simp
      · rintro ⟨_, hfalse, _⟩
        simp at hfalse
    · have hdc : decide (|__min scores runs - f runs| < 10 * tolf) = false :=
        decide_eq_false hlt
      rw [hd0, hdc, if_neg hlt]
      by_cases hcap : runs + 1 < 10
      · rw [if_pos hcap, if_pos ⟨rfl, by simp, hcap⟩]
      · rw [if_neg hcap, if_neg (by rintro ⟨_, _, h⟩; exact hcap h)]
        simp
  · intro htolf
    show lambda_runs_go (fun _ => c) tolf true 10 0 [] = (2, true)
    have s1 : lambda_runs_go (fun _ => c) tolf true 10 0 [] =
        lambda_runs_go (fun _ => c) tolf true 9 1 [c] := by
      rw [lambda_runs_go_succ]
      rw [if_pos ⟨rfl, by simp, by norm_num⟩]
      rfl
    have hmin : __min [c] 1 = c := rfl
    have habs : |__min [c] 1 - c| < 10 * tolf := by
      rw [hmin, sub_self, abs_zero]
      positivity
    have s2 : lambda_runs_go (fun _ => c) tolf true 9 1 [c] = (2, true) := by
      rw [lambda_runs_go_succ]
      rw [if_neg]
      · have h1 : decide ((0 : ℕ) < 1) = true := by decide
        have h2 : decide (|__min [c] 1 - c| < 10 * tolf) = true := decide_eq_true habs
        rw [h1, h2]
        rfl
      · rintro ⟨_, hfalse, _⟩
        have h2 : decide (|__min [c] 1 - c| < 10 * tolf) = true := decide_eq_true habs
        rw [h2] at hfalse
        simp at hfalse
    rw [s1, s2]
  · intro h
    unfold convergenceVerdict
    rw [if_neg (by rw [h]; exact Bool.false_ne_true)]
  · intro h
    unfold convergenceVerdict
    rw [if_pos h]

/-- Witness for C4 with the constant score 0 and tolF = 1. -/
theorem C4_convergence_supervisor_witness :
    (0 : ℚ) < 1 ∧ cafe_best_lambda_runs (fun _ => (0 : ℚ)) 1 true = (2, true) := by
  exact ⟨by norm_num,
    (C4_convergence_supervisor (fun _ => (0 : ℚ)) 1 true 0).2.2.1 (by norm_num)⟩

lemma cafe_set_prior_getD (pdf : ℝ → ℝ → Option ℝ) (shift : Int) (lam : ℝ)
    (i : ℕ) (hi : i < FAMILYSIZEMAX) (d : Option ℝ) :
    (cafe_set_prior_rfsize_poisson_lambda pdf shift lam).getD i d =
      pdf ((shift : ℝ) - 1 + (i : ℕ)) lam := by
  unfold cafe_set_prior_rfsize_poisson_lambda
  rw [List.getD_eq_getElem _ _ (by simpa using hi)]
  simp

/-- C5 counterexample: a species whose tree index is negative is
skipped by collect_leaf_sizes even when its count is positive, so the
collection is not every positive leaf count over all families and
species (here the count 5 of the only species is dropped entirely). -/
theorem C5_counterexample :
    collect_leaf_sizes ⟨1, [-1], [⟨"f1", [5], -1, -1⟩]⟩ = [] ∧
    collect_leaf_sizes_spec ⟨1, [-1], [⟨"f1", [5], -1, -1⟩]⟩ = [4] := by
  constructor <;> decide

/-- C5 amended: over species mapped into the tree (nonnegative index)
the collection is exactly the positive leaf counts shifted by -1 (and
in particular the leaf counts 0,0,1,2 with all species mapped yield the
shifted multiset 0,1); the fit passes to the optimizer precisely the
Poisson log-likelihood objective on that collection; and the prior
array has one entry per index below FAMILYSIZEMAX holding
pmf(rootMinSize - 1 + i, fittedRate). -/
theorem C5_prior_estimation (fmin : (ℝ → EReal) → ℝ) (pdf : ℝ → ℝ → Option ℝ)
    (qfamily : CafeFamily) (shift : Int) (lam : ℝ) :
    ((∀ i, i < qfamily.num_species → 0 ≤ qfamily.index.getD i (-1)) →
      collect_leaf_sizes qfamily = collect_leaf_sizes_spec qfamily) ∧
    (collect_leaf_sizes ⟨4, [0, 0, 0, 0], [⟨"f1", [0, 0, 1, 2], -1, -1⟩]⟩ = [0, 1]) ∧
    (find_poisson_lambda fmin pdf qfamily =
      fmin (__lnLPoisson pdf (collect_leaf_sizes qfamily))) ∧
    ((cafe_set_prior_rfsize_poisson_lambda pdf shift lam).length = FAMILYSIZEMAX) ∧
    (∀ i, i < FAMILYSIZEMAX →
      (cafe_set_prior_rfsize_poisson_lambda pdf shift lam).getD i none =
        pdf ((shift : ℝ) - 1 + (i : ℕ)) lam) := by
  refine ⟨?_, by decide, rfl, ?_, ?_⟩
  · intro h
    unfold collect_leaf_sizes collect_leaf_sizes_spec
    apply List.flatMap_congr
    intro pitem _
    apply List.filterMap_congr
    intro i hi
    have hge : 0 ≤ qfamily.index.getD i (-1) := h i (List.mem_range.1 hi)
    rw [if_neg (not_lt.2 hge)]
  · unfold cafe_set_prior_rfsize_poisson_lambda
    simp
  · intro i hi
    exact cafe_set_prior_getD pdf shift lam i hi none

/-- Witness for C5 amended at a fully mapped concrete family. -/
theorem C5_prior_estimation_witness :
    (∀ i, i < (⟨4, [0, 0, 0, 0], [⟨"f1", [0, 0, 1, 2], -1, -1⟩]⟩ : CafeFamily).num_species →
      0 ≤ (⟨4, [0, 0, 0, 0], [⟨"f1", [0, 0, 1, 2], -1, -1⟩]⟩ : CafeFamily).index.getD i (-1)) ∧
    collect_leaf_sizes ⟨4, [0, 0, 0, 0], [⟨"f1", [0, 0, 1, 2], -1, -1⟩]⟩ =
      collect_leaf_sizes_spec ⟨4, [0, 0, 0, 0], [⟨"f1", [0, 0, 1, 2], -1, -1⟩]⟩ := by
  have h : ∀ i, i < (⟨4, [0, 0, 0, 0], [⟨"f1", [0, 0, 1, 2], -1, -1⟩]⟩ : CafeFamily).num_species →
      0 ≤ (⟨4, [0, 0, 0, 0], [⟨"f1", [0, 0, 1, 2], -1, -1⟩]⟩ : CafeFamily).index.getD i (-1) := by
    decide
  exact ⟨h, (C5_prior_estimation (fun _ => 0) (fun _ _ => none)
    ⟨4, [0, 0, 0, 0], [⟨"f1", [0, 0, 1, 2], -1, -1⟩]⟩ 0 0).1 h⟩

/-- C10 counterexample: a NaN pmf value (modelled as none) is stored
unmodified in the prior array by cafe_set_prior_rfsize_poisson_lambda,
not coerced to 0; the coercion exists only in the fitting objective
__lnLPoisson, where a NaN pmf contributes log(0), making the negated
objective top. -/
theorem C10_counterexample :
    (cafe_set_prior_rfsize_poisson_lambda (fun _ _ => none) 1 0).getD 0 (some 37) = none ∧
    (none : Option ℝ) ≠ some 0 ∧
    __lnLPoisson (fun _ _ => none) [3] 0 = (⊤ : EReal) := by
  refine ⟨?_, by simp, ?_⟩
  · rw [cafe_set_prior_getD (fun _ _ => none) 1 0 0 (by norm_num [FAMILYSIZEMAX]) (some 37)]
  · unfold __lnLPoisson
    rw [List.foldl_cons, List.foldl_nil]
    show -((0 : EReal) + elog (nanTo0 none)) = ⊤
    show -((0 : EReal) + elog 0) = ⊤
    rw [elog_zero, EReal.add_bot, EReal.neg_bot]

/-- C10 amended: the NaN-to-0 coercion is applied during fitting (the
objective is unchanged if every pmf value is pre-coerced), while the
prior array stores the raw pmf values, NaN included, unmodified. -/
theorem C10_nan_coercion (pdf : ℝ → ℝ → Option ℝ) (ls : List Int) (lam : ℝ)
    (shift : Int) :
    __lnLPoisson pdf ls lam =
      __lnLPoisson (fun a b => some (nanTo0 (pdf a b))) ls lam ∧
    (cafe_set_prior_rfsize_poisson_lambda pdf shift lam).length = FAMILYSIZEMAX ∧
    (∀ i, i < FAMILYSIZEMAX →
      (cafe_set_prior_rfsize_poisson_lambda pdf shift lam).getD i none =
        pdf ((shift : ℝ) - 1 + (i : ℕ)) lam) := by
  refine ⟨rfl, ?_, ?_⟩
  · unfold cafe_set_prior_rfsize_poisson_lambda
    simp
  · intro i hi
    exact cafe_set_prior_getD pdf shift lam i hi none

/-- Witness for C10 amended at index 0 of a concrete pmf. -/
theorem C10_nan_coercion_witness :
    (0 : ℕ) < FAMILYSIZEMAX ∧
    (cafe_set_prior_rfsize_poisson_lambda (fun _ _ => some 1) 1 0).getD 0 none =
      (fun _ _ => some (1 : ℝ)) ((1 : ℝ) - 1 + ((0 : ℕ) : ℕ)) (0 : ℝ) := by
  have h0 : (0 : ℕ) < FAMILYSIZEMAX := by norm_num [FAMILYSIZEMAX]
  exact ⟨h0, (C10_nan_coercion (fun _ _ => some 1) [] 0 1).2.2 0 h0⟩

lemma eachGo_stable (forced : ℕ → family_size_range) (optimize : ℕ → List ℚ → List ℚ)
    (lambda_len : ℕ) :
    ∀ (rest : List CafeFamilyItem) (i : ℕ) (st : EachState) (k : ℕ),
      k < st.reslam.length → k < st.resmu.length →
      (eachGo forced optimize lambda_len rest i st).reslam.getD k [] =
        st.reslam.getD k [] ∧
      (eachGo forced optimize lambda_len rest i st).resmu.getD k [] =
        st.resmu.getD k [] := by
  intro rest
  induction rest with
  | nil => intro i st k _ _; exact ⟨rfl, rfl⟩
  | cons pitem rest ih =>
    intro i st k hk1 hk2
    by_cases hd : 0 ≤ pitem.ref ∧ pitem.ref ≠ (i : Int)
    · show (eachGo forced optimize lambda_len (pitem :: rest) i st).reslam.getD k [] = _ ∧
        (eachGo forced optimize lambda_len (pitem :: rest) i st).resmu.getD k [] = _
      have hstep : eachGo forced optimize lambda_len (pitem :: rest) i st =
          eachGo forced optimize lambda_len rest (i + 1)
            { st with
              reslam := st.reslam ++ [st.reslam.getD pitem.ref.toNat []],
              resmu := st.resmu ++ [st.resmu.getD pitem.ref.toNat []] } := by
        show (if 0 ≤ pitem.ref ∧ pitem.ref ≠ (i : Int) then _ else _) = _
        rw [if_pos hd]
      rw [hstep]
      have := ih (i + 1)
        { st with
          reslam := st.reslam ++ [st.reslam.getD pitem.ref.toNat []],
          resmu := st.resmu ++ [st.resmu.getD pitem.ref.toNat []] } k
        (by simp; omega) (by simp; omega)
      rw [this.1, this.2]
      constructor
      · exact List.getD_append _ _ _ _ hk1
      · exact List.getD_append _ _ _ _ hk2
    · have hstep : eachGo forced optimize lambda_len (pitem :: rest) i st =
          eachGo forced optimize lambda_len rest (i + 1)
            { reslam := st.reslam ++ [optimize i st.cur],
              resmu := st.resmu ++ [List.replicate lambda_len 0],
              cur := optimize i st.cur,
              family_size := forced i,
              tree_range := forced i,
              optCalls := st.optCalls + 1 } := by
        show (if 0 ≤ pitem.ref ∧ pitem.ref ≠ (i : Int) then _ else _) = _
        rw [if_neg hd]
      rw [hstep]
      have := ih (i + 1)
        { reslam := st.reslam ++ [optimize i st.cur],
          resmu := st.resmu ++ [List.replicate lambda_len 0],
          cur := optimize i st.cur,
          family_size := forced i,
          tree_range := forced i,
          optCalls := st.optCalls + 1 } k
        (by simp; omega) (by simp; omega)
      rw [this.1, this.2]
      constructor
      · exact List.getD_append _ _ _ _ hk1
      · exact List.getD_append _ _ _ _ hk2

lemma eachGo_optCalls (forced : ℕ → family_size_range) (optimize : ℕ → List ℚ → List ℚ)
    (lambda_len : ℕ) :
    ∀ (rest : List CafeFamilyItem) (i : ℕ) (st : EachState),
      (eachGo forced optimize lambda_len rest i st).optCalls =
        st.optCalls + nonDupCount rest i := by
  intro rest
  induction rest with
  | nil => intro i st; simp [eachGo, nonDupCount]
  | cons pitem rest ih =>
    intro i st
    by_cases hd : 0 ≤ pitem.ref ∧ pitem.ref ≠ (i : Int)
    · have hstep : eachGo forced optimize lambda_len (pitem :: rest) i st =
          eachGo forced optimize lambda_len rest (i + 1)
            { st with
              reslam := st.reslam ++ [st.reslam.getD pitem.ref.toNat []],
              resmu := st.resmu ++ [st.resmu.getD pitem.ref.toNat []] } := by
        show (if 0 ≤ pitem.ref ∧ pitem.ref ≠ (i : Int) then _ else _) = _
        rw [if_pos hd]
      rw [hstep, ih]
      show st.optCalls + nonDupCount rest (i + 1) =
        st.optCalls + ((if 0 ≤ pitem.ref ∧ pitem.ref ≠ (i : Int) then 0 else 1) +
          nonDupCount rest (i + 1))
      rw [if_pos hd]
      omega
    · have hstep : eachGo forced optimize lambda_len (pitem :: rest) i st =
          eachGo forced optimize lambda_len rest (i + 1)
            { reslam := st.reslam ++ [optimize i st.cur],
              resmu := st.resmu ++ [List.replicate lambda_len 0],
              cur := optimize i st.cur,
              family_size := forced i,
              tree_range := forced i,
              optCalls := st.optCalls + 1 } := by
        show (if 0 ≤ pitem.ref ∧ pitem.ref ≠ (i : Int) then _ else _) = _
        rw [if_neg hd]
      rw [hstep, ih]
      show st.optCalls + 1 + nonDupCount rest (i + 1) =
        st.optCalls + ((if 0 ≤ pitem.ref ∧ pitem.ref ≠ (i : Int) then 0 else 1) +
          nonDupCount rest (i + 1))
      rw [if_neg hd]
      omega

lemma eachGo_dup_copy (forced : ℕ → family_size_range) (optimize : ℕ → List ℚ → List ℚ)
    (lambda_len : ℕ) :
    ∀ (rest : List CafeFamilyItem) (i : ℕ) (st : EachState) (j : ℕ),
      j < rest.length → st.reslam.length = i → st.resmu.length = i →
      0 ≤ (rest.getD j default).ref →
      (rest.getD j default).ref.toNat < i + j →
      (eachGo forced optimize lambda_len rest i st).reslam.getD (i + j) [] =
        (eachGo forced optimize lambda_len rest i st).reslam.getD
          (rest.getD j default).ref.toNat [] ∧
      (eachGo forced optimize lambda_len rest i st).resmu.getD (i + j) [] =
        (eachGo forced optimize lambda_len rest i st).resmu.getD
          (rest.getD j default).ref.toNat [] := by
  intro rest
  induction rest with
  | nil => intro i st j hj; cases hj
  | cons pitem rest ih =>
    intro i st j hj hl1 hl2 href hlt
    cases j with
    | zero =>
      rw [List.getD_cons_zero] at href hlt
      rw [Nat.add_zero] at hlt
      have hne : pitem.ref ≠ (i : Int) := by
        intro h
        rw [h] at hlt
        simp at hlt
      have hstep : eachGo forced optimize lambda_len (pitem :: rest) i st =
          eachGo forced optimize lambda_len rest (i + 1)
            { st with
              reslam := st.reslam ++ [st.reslam.getD pitem.ref.toNat []],
              resmu := st.resmu ++ [st.resmu.getD pitem.ref.toNat []] } := by
        show (if 0 ≤ pitem.ref ∧ pitem.ref ≠ (i : Int) then _ else _) = _
        rw [if_pos ⟨href, hne⟩]
      rw [Nat.add_zero, List.getD_cons_zero, hstep]
      have hst1 := eachGo_stable forced optimize lambda_len rest (i + 1)
        { st with
          reslam := st.reslam ++ [st.reslam.getD pitem.ref.toNat []],
          resmu := st.resmu ++ [st.resmu.getD pitem.ref.toNat []] } i
        (by simp [hl1]) (by simp [hl2])
      have hst2 := eachGo_stable forced optimize lambda_len rest (i + 1)
        { st with
          reslam := st.reslam ++ [st.reslam.getD pitem.ref.toNat []],
          resmu := st.resmu ++ [st.resmu.getD pitem.ref.toNat []] } pitem.ref.toNat
        (by simp; omega) (by simp; omega)
      rw [hst1.1, hst1.2, hst2.1, hst2.2]
      constructor
      · rw [show ({ st with
            reslam := st.reslam ++ [st.reslam.getD pitem.ref.toNat []],
            resmu := st.resmu ++ [st.resmu.getD pitem.ref.toNat []] } :
              EachState).reslam =
          st.reslam ++ [st.reslam.getD pitem.ref.toNat []] from rfl]
        rw [List.getD_append_right _ _ _ _ (le_of_eq hl1), hl1, Nat.sub_self,
          List.getD_cons_zero, List.getD_append _ _ _ _ (hl1 ▸ hlt)]
      · rw [show ({ st with
            reslam := st.reslam ++ [st.reslam.getD pitem.ref.toNat []],
            resmu := st.resmu ++ [st.resmu.getD pitem.ref.toNat []] } :
              EachState).resmu =
          st.resmu ++ [st.resmu.getD pitem.ref.toNat []] from rfl]
        rw [List.getD_append_right _ _ _ _ (le_of_eq hl2), hl2, Nat.sub_self,
          List.getD_cons_zero, List.getD_append _ _ _ _ (hl2 ▸ hlt)]
    | succ j =>
      rw [List.getD_cons_succ] at href hlt
      have heq : i + (j + 1) = (i + 1) + j := by omega
      rw [heq]
      by_cases hd : 0 ≤ pitem.ref ∧ pitem.ref ≠ (i : Int)
      · have hstep : eachGo forced optimize lambda_len (pitem :: rest) i st =
            eachGo forced optimize lambda_len rest (i + 1)
              { st with
                reslam := st.reslam ++ [st.reslam.getD pitem.ref.toNat []],
                resmu := st.resmu ++ [st.resmu.getD pitem.ref.toNat []] } := by
          show (if 0 ≤ pitem.ref ∧ pitem.ref ≠ (i : Int) then _ else _) = _
          rw [if_pos hd]
        rw [hstep]
        exact ih (i + 1) _ j (Nat.lt_of_succ_lt_succ hj) (by simp [hl1]) (by simp [hl2])
          href (by omega)
      · have hstep : eachGo forced optimize lambda_len (pitem :: rest) i st =
            eachGo forced optimize lambda_len rest (i + 1)
              { reslam := st.reslam ++ [optimize i st.cur],
                resmu := st.resmu ++ [List.replicate lambda_len 0],
                cur := optimize i st.cur,
                family_size := forced i,
                tree_range := forced i,
                optCalls := st.optCalls + 1 } := by
          show (if 0 ≤ pitem.ref ∧ pitem.ref ≠ (i : Int) then _ else _) = _
          rw [if_neg hd]
        rw [hstep]
        exact ih (i + 1) _ j (Nat.lt_of_succ_lt_succ hj) (by simp [hl1]) (by simp [hl2])
          href (by omega)

/-- C6: in the per-family search, a family whose ref points to an
earlier family gets exactly the lambda and mu results of the referenced
family, and the total number of optimizer calls equals the number of
non-duplicate families, so a duplicate contributes zero calls. -/
theorem C6_duplicate_ref (forced : ℕ → family_size_range)
    (optimize : ℕ → List ℚ → List ℚ) (lambda_len : ℕ) (maxbl : ℚ)
    (fams : List CafeFamilyItem) (fs0 tr0 : family_size_range) :
    (∀ j, j < fams.length → 0 ≤ (fams.getD j default).ref →
      (fams.getD j default).ref.toNat < j →
      (cafe_each_best_lambda_by_fminsearch forced optimize lambda_len maxbl
          fams fs0 tr0).reslam.getD j [] =
        (cafe_each_best_lambda_by_fminsearch forced optimize lambda_len maxbl
          fams fs0 tr0).reslam.getD (fams.getD j default).ref.toNat [] ∧
      (cafe_each_best_lambda_by_fminsearch forced optimize lambda_len maxbl
          fams fs0 tr0).resmu.getD j [] =
        (cafe_each_best_lambda_by_fminsearch forced optimize lambda_len maxbl
          fams fs0 tr0).resmu.getD (fams.getD j default).ref.toNat []) ∧
    (cafe_each_best_lambda_by_fminsearch forced optimize lambda_len maxbl
      fams fs0 tr0).optCalls = nonDupCount fams 0 := by
  constructor
  · intro j hj href hlt
    have := eachGo_dup_copy forced optimize lambda_len fams 0
      { reslam := [], resmu := [],
        cur := List.replicate lambda_len (1 / 2 / maxbl),
        family_size := fs0, tree_range := tr0, optCalls := 0 } j hj rfl rfl href
      (by simpa using hlt)
    rw [Nat.zero_add] at this
    exact this
  · show (eachGo forced optimize lambda_len fams 0
        { reslam := [], resmu := [],
          cur := List.replicate lambda_len (1 / 2 / maxbl),
          family_size := fs0, tree_range := tr0, optCalls := 0 }).optCalls =
      nonDupCount fams 0
    rw [eachGo_optCalls]
    simp

/-- Witness for C6 with a two-family list whose second family refers to
the first. -/
theorem C6_duplicate_ref_witness :
    ((1 : ℕ) < ([⟨"a", [], -1, -1⟩, ⟨"b", [], 0, -1⟩] : List CafeFamilyItem).length ∧
      0 ≤ (([⟨"a", [], -1, -1⟩, ⟨"b", [], 0, -1⟩] :
        List CafeFamilyItem).getD 1 default).ref ∧
      (([⟨"a", [], -1, -1⟩, ⟨"b", [], 0, -1⟩] :
        List CafeFamilyItem).getD 1 default).ref.toNat < 1) ∧
    (cafe_each_best_lambda_by_fminsearch (fun _ => ⟨0, 0, 0, 0⟩) (fun _ c => c) 1 1
        [⟨"a", [], -1, -1⟩, ⟨"b", [], 0, -1⟩] ⟨0, 0, 0, 0⟩ ⟨0, 0, 0, 0⟩).reslam.getD 1 [] =
      (cafe_each_best_lambda_by_fminsearch (fun _ => ⟨0, 0, 0, 0⟩) (fun _ c => c) 1 1
        [⟨"a", [], -1, -1⟩, ⟨"b", [], 0, -1⟩] ⟨0, 0, 0, 0⟩ ⟨0, 0, 0, 0⟩).reslam.getD
          (([⟨"a", [], -1, -1⟩, ⟨"b", [], 0, -1⟩] :
            List CafeFamilyItem).getD 1 default).ref.toNat [] := by
  have h1 : (1 : ℕ) < ([⟨"a", [], -1, -1⟩, ⟨"b", [], 0, -1⟩] :
      List CafeFamilyItem).length := by norm_num
  have h2 : 0 ≤ (([⟨"a", [], -1, -1⟩, ⟨"b", [], 0, -1⟩] :
      List CafeFamilyItem).getD 1 default).ref := by decide
  have h3 : (([⟨"a", [], -1, -1⟩, ⟨"b", [], 0, -1⟩] :
      List CafeFamilyItem).getD 1 default).ref.toNat < 1 := by decide
  exact ⟨⟨h1, h2, h3⟩,
    ((C6_duplicate_ref (fun _ => ⟨0, 0, 0, 0⟩) (fun _ c => c) 1 1
      [⟨"a", [], -1, -1⟩, ⟨"b", [], 0, -1⟩] ⟨0, 0, 0, 0⟩ ⟨0, 0, 0, 0⟩).1 1 h1 h2 h3).1⟩

/-- C9: after the per-family search the session family-size range and
the tree range both hold the entry value of the session range (so under
the shared-state invariant that they agree on entry, both are restored
exactly); during fitting of a non-duplicate family the ranges are
overridden with the per-family forced range. -/
theorem C9_session_range_restored (forced : ℕ → family_size_range)
    (optimize : ℕ → List ℚ → List ℚ) (lambda_len : ℕ) (maxbl : ℚ)
    (fams : List CafeFamilyItem) (fs0 tr0 : family_size_range)
    (st : EachState) (i : ℕ) (fam : CafeFamilyItem) :
    ((cafe_each_best_lambda_by_fminsearch forced optimize lambda_len maxbl
      fams fs0 tr0).family_size = fs0) ∧
    ((cafe_each_best_lambda_by_fminsearch forced optimize lambda_len maxbl
      fams fs0 tr0).tree_range = fs0) ∧
    (tr0 = fs0 →
      (cafe_each_best_lambda_by_fminsearch forced optimize lambda_len maxbl
        fams fs0 tr0).family_size = fs0 ∧
      (cafe_each_best_lambda_by_fminsearch forced optimize lambda_len maxbl
        fams fs0 tr0).tree_range = tr0) ∧
    (¬(0 ≤ fam.ref ∧ fam.ref ≠ (i : Int)) →
      (eachGo forced optimize lambda_len [fam] i st).family_size = forced i ∧
      (eachGo forced optimize lambda_len [fam] i st).tree_range = forced i) := by
  refine ⟨rfl, rfl, ?_, ?_⟩
  · intro h
    subst h
    exact ⟨rfl, rfl⟩
  · intro h
    have hstep : eachGo forced optimize lambda_len [fam] i st =
        { reslam := st.reslam ++ [optimize i st.cur],
          resmu := st.resmu ++ [List.replicate lambda_len 0],
          cur := optimize i st.cur,
          family_size := forced i,
          tree_range := forced i,
          optCalls := st.optCalls + 1 } := by
      show (if 0 ≤ fam.ref ∧ fam.ref ≠ (i : Int) then _ else _) = _
      rw [if_neg h]
      rfl
    rw [hstep]
    exact ⟨rfl, rfl⟩

/-- Witness for C9 with agreeing entry ranges and a non-duplicate
family. -/
theorem C9_session_range_restored_witness :
    ((⟨1, 2, 3, 4⟩ : family_size_range) = ⟨1, 2, 3, 4⟩) ∧
    (cafe_each_best_lambda_by_fminsearch (fun _ => ⟨9, 9, 9, 9⟩) (fun _ c => c) 1 1
      [⟨"a", [], -1, -1⟩] ⟨1, 2, 3, 4⟩ ⟨1, 2, 3, 4⟩).family_size = ⟨1, 2, 3, 4⟩ ∧
    (cafe_each_best_lambda_by_fminsearch (fun _ => ⟨9, 9, 9, 9⟩) (fun _ c => c) 1 1
      [⟨"a", [], -1, -1⟩] ⟨1, 2, 3, 4⟩ ⟨1, 2, 3, 4⟩).tree_range = ⟨1, 2, 3, 4⟩ := by
  exact ⟨rfl, (C9_session_range_restored (fun _ => ⟨9, 9, 9, 9⟩) (fun _ c => c) 1 1
    [⟨"a", [], -1, -1⟩] ⟨1, 2, 3, 4⟩ ⟨1, 2, 3, 4⟩
    { reslam := [], resmu := [], cur := [], family_size := ⟨0, 0, 0, 0⟩,
      tree_range := ⟨0, 0, 0, 0⟩, optCalls := 0 } 0 ⟨"a", [], -1, -1⟩).2.2.1 rfl⟩

lemma gridIndices_length : ∀ (ds : List ℕ), (gridIndices ds).length = ds.prod := by
  intro ds
  induction ds with
  | nil => rfl
  | cons d ds ih =>
    show ((List.range d).flatMap (fun i => (gridIndices ds).map (fun idx => i :: idx))).length =
      (d :: ds).prod
    rw [List.length_flatMap]
    simp only [Function.comp_def, List.length_map, ih]
    rw [List.map_const', List.sum_replicate, smul_eq_mul, List.length_range,
      List.prod_cons]

lemma gridStep_fst (eval : List ℚ → List Int → ℚ × List Int) (ranges : List lambda_range)
    (acc : List ℚ × List Int) (idx : List ℕ) :
    (gridStep eval ranges acc idx).1 =
      acc.1 ++ [-(eval (lambdaOf ranges idx) acc.2).1] := rfl

lemma foldl_gridStep_length (eval : List ℚ → List Int → ℚ × List Int)
    (ranges : List lambda_range) :
    ∀ (idxs : List (List ℕ)) (acc : List ℚ × List Int),
      ((idxs.foldl (gridStep eval ranges) acc).1).length = acc.1.length + idxs.length := by
  intro idxs
  induction idxs with
  | nil => intro acc; simp
  | cons idx idxs ih =>
    intro acc
    rw [List.foldl_cons, ih]
    have : (gridStep eval ranges acc idx).1.length = acc.1.length + 1 := by
      rw [gridStep_fst]
      simp
    rw [this]
    simp only [List.length_cons]
    omega

lemma lambdaOf_getD : ∀ (ranges : List lambda_range) (idx : List ℕ) (j : ℕ),
    j < ranges.length → j < idx.length →
    (lambdaOf ranges idx).getD j 0 =
      (ranges.getD j default).step * ((idx.getD j 0 : ℕ) : ℚ) +
        (ranges.getD j default).start := by
  intro ranges
  induction ranges with
  | nil => intro idx j hj; cases hj
  | cons r ranges ih =>
    intro idx j hj1 hj2
    cases idx with
    | nil => cases hj2
    | cons i idx =>
      cases j with
      | zero => rfl
      | succ j =>
        show (((r, i) :: ranges.zip idx).map
          (fun p => p.1.step * ((p.2 : ℕ) : ℚ) + p.1.start)).getD (j + 1) 0 = _
        rw [List.map_cons, List.getD_cons_succ, List.getD_cons_succ, List.getD_cons_succ]
        exact ih idx j (Nat.lt_of_succ_lt_succ hj1) (Nat.lt_of_succ_lt_succ hj2)

/-- C7: with positive step and ordered endpoints, the per-dimension
grid point count equals 1 + round((end - start) / step); the scan
output has exactly one row per point of the cartesian product, each row
holding the coordinate vector of its grid point (coordinate j being
start_j + idx_j * step_j) followed by the stored score of the scan at
that point. -/
theorem C7_grid_scan (eval : List ℚ → List Int → ℚ × List Int)
    (ranges : List lambda_range) (maxlh0 : List Int) :
    (∀ r, r ∈ ranges → 0 < r.step → r.start ≤ r.end_ →
      (grid_dim r : ℤ) = 1 + rint ((r.end_ - r.start) / r.step)) ∧
    (write_lambda_distribution eval ranges maxlh0).length = (ranges.map grid_dim).prod ∧
    (write_lambda_distribution eval ranges maxlh0).map Prod.fst =
      (gridIndices (ranges.map grid_dim)).map (lambdaOf ranges) ∧
    (write_lambda_distribution eval ranges maxlh0).map Prod.snd =
      (cafe_lambda_distribution eval ranges maxlh0).1 ∧
    (∀ idx j, j < ranges.length → j < idx.length →
      (lambdaOf ranges idx).getD j 0 =
        (ranges.getD j default).step * ((idx.getD j 0 : ℕ) : ℚ) +
          (ranges.getD j default).start) := by
  have hvlen : (cafe_lambda_distribution eval ranges maxlh0).1.length =
      (gridIndices (ranges.map grid_dim)).length := by
    unfold cafe_lambda_distribution
    rw [foldl_gridStep_length]
    simp
  refine ⟨?_, ?_, ?_, ?_, lambdaOf_getD ranges⟩
  · intro r _ hstep hord
    have hx : (0 : ℚ) ≤ (r.end_ - r.start) / r.step :=
      div_nonneg (sub_nonneg.2 hord) (le_of_lt hstep)
    have hrnn : 0 ≤ rint ((r.end_ - r.start) / r.step) := by
      unfold rint
      rw [round_eq]
      rw [Int.le_floor]
      push_cast
      linarith
    unfold grid_dim
    rw [Int.toNat_of_nonneg (by unfold grid_size; omega)]
    rfl
  · unfold write_lambda_distribution
    rw [List.length_map, List.length_zip, hvlen, min_self, gridIndices_length]
  · unfold write_lambda_distribution
    rw [List.map_map]
    rw [show (Prod.fst ∘ fun p : List ℕ × ℚ => (lambdaOf ranges p.1, p.2)) =
      (lambdaOf ranges ∘ Prod.fst) from rfl]
    rw [← List.map_map]
    rw [List.map_fst_zip _ _ (le_of_eq hvlen.symm)]
  · unfold write_lambda_distribution
    rw [List.map_map]
    rw [show (Prod.snd ∘ fun p : List ℕ × ℚ => (lambdaOf ranges p.1, p.2)) =
      (Prod.snd : List ℕ × ℚ → ℚ) from rfl]
    exact List.map_snd_zip _ _ (le_of_eq hvlen)

/-- Witness for C7 on the concrete range 0 : 1/2 : 1. -/
theorem C7_grid_scan_witness :
    ((0 : ℚ) < 1 / 2 ∧ (0 : ℚ) ≤ 1) ∧
    ((grid_dim ⟨0, 1 / 2, 1⟩ : ℤ) =
      1 + rint ((((⟨0, 1 / 2, 1⟩ : lambda_range)).end_ -
        ((⟨0, 1 / 2, 1⟩ : lambda_range)).start) / ((⟨0, 1 / 2, 1⟩ : lambda_range)).step)) := by
  refine ⟨⟨by norm_num, by norm_num⟩, ?_⟩
  exact (C7_grid_scan (fun _ c => (0, c)) [⟨0, 1 / 2, 1⟩] []).1 ⟨0, 1 / 2, 1⟩
    (List.mem_singleton.2 rfl) (by norm_num) (by norm_num)

set_option maxRecDepth 4000 in
lemma gridStep_snd (eval : List ℚ → List Int → ℚ × List Int) (ranges : List lambda_range)
    (acc : List ℚ × List Int) (idx : List ℕ) :
    (gridStep eval ranges acc idx).2 =
      if - -(eval (lambdaOf ranges idx) acc.2).1 > (10 : ℚ) ^ 300
      then ((eval (lambdaOf ranges idx) acc.2).2).map (fun _ => (-1 : Int))
      else (eval (lambdaOf ranges idx) acc.2).2 := rfl

/-- C8: during the grid scan, a point whose stored score lies below the
impossibility threshold -1e300 makes every entry of the per-family
maxlh cache list -1 in the state handed to the next point (and the fold
hands exactly that state to the remaining points); a point at or above
the threshold leaves the cache as the evaluation produced it; and
compute_posterior fills the cache field only when it is negative,
leaving a nonnegative cached value unchanged. -/
theorem C8_cache_invalidation (eval : List ℚ → List Int → ℚ × List Int)
    (ranges : List lambda_range) (acc : List ℚ × List Int) (idx : List ℕ)
    (idxs : List (List ℕ)) (l : List ℝ) (n : ℕ) (p : List ℝ) (m : Int) :
    (-(eval (lambdaOf ranges idx) acc.2).1 < -((10 : ℚ) ^ 300) →
      (gridStep eval ranges acc idx).2 =
        ((eval (lambdaOf ranges idx) acc.2).2).map (fun _ => (-1 : Int)) ∧
      ∀ c ∈ (gridStep eval ranges acc idx).2, c = -1) ∧
    (¬(-(eval (lambdaOf ranges idx) acc.2).1 < -((10 : ℚ) ^ 300)) →
      (gridStep eval ranges acc idx).2 = (eval (lambdaOf ranges idx) acc.2).2) ∧
    ((idx :: idxs).foldl (gridStep eval ranges) acc =
      idxs.foldl (gridStep eval ranges) (gridStep eval ranges acc idx)) ∧
    (m < 0 → (compute_posterior l n p m).2 = __maxidx l n) ∧
    (0 ≤ m → (compute_posterior l n p m).2 = m) := by
  refine ⟨?_, ?_, List.foldl_cons _ _, ?_, ?_⟩
  · intro h
    have hcond : - -(eval (lambdaOf ranges idx) acc.2).1 > (10 : ℚ) ^ 300 := by
      rw [neg_neg]
      linarith
    have hmap : (gridStep eval ranges acc idx).2 =
        ((eval (lambdaOf ranges idx) acc.2).2).map (fun _ => (-1 : Int)) := by
      rw [gridStep_snd, if_pos hcond]
    refine ⟨hmap, ?_⟩
    intro c hc
    rw [hmap] at hc
    rcases List.mem_map.1 hc with ⟨_, _, rfl⟩
    rfl
  · intro h
    have hcond : ¬(- -(eval (lambdaOf ranges idx) acc.2).1 > (10 : ℚ) ^ 300) := by
      rw [neg_neg]
      intro hgt
      exact h (by linarith)
    rw [gridStep_snd, if_neg hcond]
  · intro hm
    show (if m < 0 then __maxidx l n else m) = __maxidx l n
    rw [if_pos hm]
  · intro hm
    show (if m < 0 then __maxidx l n else m) = m
    rw [if_neg (not_lt.2 hm)]

/-- Witness for C8 at a concrete point scoring below the threshold with
a two-family cache. -/
theorem C8_cache_invalidation_witness :
    (-((fun (_ : List ℚ) (c : List Int) => ((10 : ℚ) ^ 301, c)) (lambdaOf [] [])
        (([], [7, 8]) : List ℚ × List Int).2).1 < -((10 : ℚ) ^ 300)) ∧
    (gridStep (fun _ c => ((10 : ℚ) ^ 301, c)) [] (([], [7, 8]) : List ℚ × List Int) []).2 =
      ([7, 8] : List Int).map (fun _ => (-1 : Int)) ∧
    ∀ c ∈ (gridStep (fun _ c => ((10 : ℚ) ^ 301, c)) []
      (([], [7, 8]) : List ℚ × List Int) []).2, c = -1 := by
  have hpow : (10 : ℚ) ^ 300 < (10 : ℚ) ^ 301 := by
    have h1 : (10 : ℚ) ^ 301 = (10 : ℚ) ^ 300 * 10 := by ring
    rw [h1]
    nlinarith [pow_pos (show (0 : ℚ) < 10 by norm_num) 300]
  have h : -((fun (_ : List ℚ) (c : List Int) => ((10 : ℚ) ^ 301, c)) (lambdaOf [] [])
      (([], [7, 8]) : List ℚ × List Int).2).1 < -((10 : ℚ) ^ 300) := by
    show -((10 : ℚ) ^ 301) < -((10 : ℚ) ^ 300)
    exact neg_lt_neg hpow
  exact ⟨h, (C8_cache_invalidation (fun _ c => ((10 : ℚ) ^ 301, c)) []
    (([], [7, 8]) : List ℚ × List Int) [] [] [] 0 [] 0).1 h⟩
